import Mathlib

/-!
Verification of the Markdown chunking pipeline of the `buddy` repository
(`services/worker/src/exam_tutor_worker/pipelines/{normalize,cleanup,chunker,chunk_filter}.py`).

Shallow embedding conventions:
* Python `str` is modelled as `List Char` (a Python string is a sequence of
  code points).  Whitespace, `lower` and `isalnum` are modelled at the ASCII
  level, which covers every string literal occurring in the pipeline.
* `hashlib.sha256(text).hexdigest()` is modelled by the trimmed text itself:
  the code only ever uses the digest as a set/equality key, and the model
  treats the hash as injective.
* Python floats for `quality_score` are modelled as rationals.  The only
  scores ever attached to chunks that survive into a comparison are built
  from the fixed table {1.0, -0.7, -0.6, -1.0, -0.3, +0.05} by one addition
  chain per tag combination, and the double-precision images of the values
  compared by the capping sort ({0.7, 0.75, 1.0} for kept chunks) are
  ordered exactly like their rational counterparts.
* Python `dict` is modelled as an insertion-ordered association list, and
  Python's stable `sorted(reverse=True)` as a stable insertion sort.
-/

/-- Python `str` as a sequence of code points. -/
abbrev Str := List Char

/-- Convert a Lean string literal to the model type. -/
def strL (s : String) : Str := s.toList

/-- ASCII whitespace, the characters of the regex class `\s` (and the ones
`str.strip()` removes in the pipeline's data). -/
def isWsChar (c : Char) : Bool :=
  c = ' ' || c = '\t' || c = '\n' || c = '\r' || c = '\x0b' || c = '\x0c'

/-- Python `str.lstrip()`. -/
def pyLStrip (l : Str) : Str := l.dropWhile isWsChar

/-- Python `str.rstrip()`. -/
def pyRStrip (l : Str) : Str := (l.reverse.dropWhile isWsChar).reverse

/-- Python `str.strip()`. -/
def pyStrip (l : Str) : Str := pyRStrip (pyLStrip l)

/-- Python `str.lower()` (ASCII). -/
def pyLower (l : Str) : Str := l.map Char.toLower

/-- `a.startswith(b)`. -/
def startsWithS (pre l : Str) : Bool := List.isPrefixOf pre l

/-- Python truthiness-aware `a or b` on optional strings (`None` and `""` are
falsy). -/
def pyOrOpt (a b : Option Str) : Option Str :=
  match a with
  | some s => if s = [] then b else some s
  | none => b

/-- Python `"\n".join` and friends. -/
def joinWith (sep : Str) (parts : List Str) : Str := List.intercalate sep parts

/-- Python `str.splitlines()` restricted to `\n` terminators (the pipeline
normalizes `\r\n` away before splitting): split at every newline and drop the
trailing empty piece produced by a final newline. -/
def splitNlAll (l : Str) : List Str :=
  l.foldr
    (fun c acc =>
      if c = '\n' then [] :: acc
      else
        match acc with
        | [] => [[c]]
        | a :: as => (c :: a) :: as)
    [[]]

def pySplitLines (l : Str) : List Str :=
  if l = [] then []
  else if l.getLast? = some '\n' then (splitNlAll l).dropLast else splitNlAll l

/-- `re.split(r"\n{2,}", ·)`: split at maximal runs of at least two newlines.
The fuel argument (any value at least the length of the input) makes the
recursion structural; every step consumes at least one character. -/
def splitBlankRunsGo : Nat → Str → List Str
  | 0, l => [l]
  | _ + 1, [] => [[]]
  | fuel + 1, c :: rest =>
    if c = '\n' ∧ rest.head? = some '\n' then
      [] :: splitBlankRunsGo fuel (rest.dropWhile (fun d => d = '\n'))
    else
      match splitBlankRunsGo fuel rest with
      | [] => [[c]]
      | a :: as => (c :: a) :: as

def splitBlankRuns (l : Str) : List Str := splitBlankRunsGo (l.length + 1) l

/-- `re.sub(r"\n{3,}", "\n\n", ·)`: collapse runs of three or more newlines
to exactly two (fueled scan). -/
def collapseBlankRunsGo : Nat → Str → Str
  | 0, l => l
  | _ + 1, [] => []
  | fuel + 1, c :: rest =>
    if c = '\n' then
      let run := rest.takeWhile (fun d => d = '\n')
      let rest2 := rest.dropWhile (fun d => d = '\n')
      (if run.length + 1 ≥ 3 then strL ("\n\n") else c :: run) ++ collapseBlankRunsGo fuel rest2
    else c :: collapseBlankRunsGo fuel rest

def collapseBlankRuns (l : Str) : Str := collapseBlankRunsGo (l.length + 1) l

/-- `re.sub(r"[ \t]+\n", "\n", ·)`: drop runs of spaces/tabs that directly
precede a newline (fueled scan). -/
def stripWsBeforeNlGo : Nat → Str → Str
  | 0, l => l
  | _ + 1, [] => []
  | fuel + 1, c :: rest =>
    if c = ' ' ∨ c = '\t' then
      let run := rest.takeWhile (fun d => d = ' ' ∨ d = '\t')
      let rest2 := rest.dropWhile (fun d => d = ' ' ∨ d = '\t')
      match rest2 with
      | '\n' :: r => '\n' :: stripWsBeforeNlGo fuel r
      | _ => (c :: run) ++ stripWsBeforeNlGo fuel rest2
    else c :: stripWsBeforeNlGo fuel rest

def stripWsBeforeNl (l : Str) : Str := stripWsBeforeNlGo (l.length + 1) l

/-- Python `str.replace(pat, rep)` with a non-empty pattern (fueled scan). -/
def replaceAllGo (pat rep : Str) : Nat → Str → Str
  | 0, l => l
  | _ + 1, [] => []
  | fuel + 1, c :: rest =>
    if pat ≠ [] ∧ List.isPrefixOf pat (c :: rest) then
      rep ++ replaceAllGo pat rep fuel ((c :: rest).drop pat.length)
    else c :: replaceAllGo pat rep fuel rest

def replaceAll (pat rep : Str) (l : Str) : Str := replaceAllGo pat rep (l.length + 1) l

/-- `normalize_markdown` from `pipelines/normalize.py`. -/
def normalize_markdown (md : Str) : Str :=
  let md1 := replaceAll (strL ("\r\n")) (strL ("\n")) md
  let md2 := stripWsBeforeNl md1
  let md3 := collapseBlankRuns md2
  let md4 := replaceAll (strL ("<!-- image -->")) (strL ("[IMAGE]")) md3
  let paras := ((splitBlankRuns md4).map pyStrip).filter (· ≠ [])
  let deduped := paras.foldl (fun acc p => if acc.getLast? = some p then acc else acc ++ [p]) []
  pyStrip (joinWith (strL ("\n\n")) deduped)

/-- The regex `^(\s*[-*+]\s+|\s*\d+\.\s+)` used to recognize list items. -/
def listStartMatch (l : Str) : Bool :=
  let r := l.dropWhile isWsChar
  match r with
  | [] => false
  | c :: rest =>
    if c = '-' ∨ c = '*' ∨ c = '+' then
      match rest with
      | [] => false
      | d :: _ => isWsChar d
    else
      let ds := r.takeWhile Char.isDigit
      decide (ds ≠ []) &&
        match r.drop ds.length with
        | '.' :: w :: _ => isWsChar w
        | _ => false

/-- `is_candidate` from `cleanup_markdown`. -/
def isCandidateLine (line : Str) : Bool :=
  let s := pyStrip line
  decide (s ≠ []) &&
    !startsWithS (strL ("#")) s &&
    !startsWithS (strL ("|")) s &&
    !listStartMatch s &&
    decide (s ≠ strL ("[IMAGE]")) &&
    decide (3 ≤ s.length) && decide (s.length ≤ 80)

/-- `cleanup_markdown` from `pipelines/cleanup.py`. -/
def cleanup_markdown (md : Str) : Str :=
  let md1 := replaceAll (strL ("\r\n")) (strL ("\n")) md
  let lines := pySplitLines md1
  let cands := (lines.filter isCandidateLine).map pyStrip
  let hasRepeated := cands.any (fun s => 6 ≤ cands.count s)
  if ¬hasRepeated then pyStrip md1
  else
    let out := lines.filter (fun ln => ¬(6 ≤ cands.count (pyStrip ln)))
    pyStrip (collapseBlankRuns (joinWith (strL ("\n")) out))

/-- `TokenCounter.count` in its heuristic fallback (no subword tokenizer):
strip, then `max(1, len/4)` for non-empty, `0` for empty. -/
def tcCount (t : Str) : Nat :=
  let s := pyStrip t
  if s = [] then 0 else max 1 (s.length / 4)

/-- `TokenCounter.tail_text` in its heuristic fallback: Python
`text[-max(0, 4*n):]` (note that `text[-0:]` is the whole string). -/
def tcTail (t : Str) (n : Nat) : Str :=
  let m := 4 * n
  if m = 0 then t else t.drop (t.length - m)

/-! ## Data model of `pipelines/chunker.py` -/

/-- `_Block` from `chunker.py`.  `block_type` is one of
`"heading" | "text" | "table" | "code" | "list" | "image"` (kept as a string,
as in the source). -/
structure MdBlock where
  text : Str
  token_count : Nat
  section_path : Option Str
  parent_section_path : Option Str
  block_type : Str
  heading_level : Option Nat := none
deriving DecidableEq

def btHeading : Str := strL ("heading")
def btText : Str := strL ("text")
def btTable : Str := strL ("table")
def btCode : Str := strL ("code")
def btList : Str := strL ("list")
def btImage : Str := strL ("image")

/-- The metadata dictionary attached to a `Chunk`.  The Python code only ever
stores/reads the keys modelled here; an absent key is `none` / `[]`. -/
structure ChunkMeta where
  section_paths : List Str := []
  primary_section_path : Option Str := none
  parent_section_path : Option Str := none
  block_types : List Str := []
  tags : List Str := []
  quality_score : Option ℚ := none
  merged_heading : Option Bool := none
deriving DecidableEq

/-- `Chunk` from `chunker.py`. -/
structure Chunk where
  index : Nat
  text : Str
  token_count : Nat
  metadata : ChunkMeta
deriving DecidableEq

/-- The chunker configuration resulting from `TokenAwareChunker.__init__`.
The constructor body only assigns the fields (clamping
`parent_section_level` into 1..6); it performs no validation whatsoever. -/
structure ChunkerCfg where
  min_tokens : Nat
  max_tokens : Nat
  overlap_tokens : Nat
  parent_section_level : Nat
deriving DecidableEq

/-- `TokenAwareChunker.__init__`: a total function — it never raises,
whatever the relationship between `min_tokens` and `max_tokens`. -/
def tokenAwareChunkerInit (min_tokens max_tokens overlap_tokens parent_section_level : Nat) :
    ChunkerCfg :=
  { min_tokens := min_tokens
    max_tokens := max_tokens
    overlap_tokens := overlap_tokens
    parent_section_level := max 1 (min 6 parent_section_level) }

/-- `TokenAwareChunker._section_path`. -/
def sectionPathOf (stack : List (Nat × Str)) : Option Str :=
  if stack = [] then none
  else some (joinWith (strL (" > ")) (stack.map (·.2)))

/-- `TokenAwareChunker._parent_section_path`: truncate the heading stack to
levels at or above the threshold; if the document starts below that level,
fall back to the bottom-most heading on the stack. -/
def parentSectionPathOf (p : Nat) (stack : List (Nat × Str)) : Option Str :=
  match stack with
  | [] => none
  | s0 :: _ =>
    let kept := stack.filter (fun e => e.1 ≤ p)
    let kept2 := if kept = [] then [s0] else kept
    some (joinWith (strL (" > ")) (kept2.map (·.2)))

/-- The heading regex `^(#{1,6})\s+(.+?)\s*$` applied to a raw line:
returns the heading level and the (stripped) title. -/
def matchHeading (line : Str) : Option (Nat × Str) :=
  let hashes := line.takeWhile (fun c => c = '#')
  let n := hashes.length
  if 1 ≤ n ∧ n ≤ 6 then
    let rest := line.drop n
    let ws := rest.takeWhile isWsChar
    if ws = [] then none
    else
      let body := rest.drop ws.length
      if body = [] then none else some (n, pyStrip (pyRStrip body))
  else none

/-- Pop the heading stack down to levels strictly below `level`
(`while stack and stack[-1][0] >= level: stack.pop()`). -/
def popStack (stack : List (Nat × Str)) (level : Nat) : List (Nat × Str) :=
  (stack.reverse.dropWhile (fun e => level ≤ e.1)).reverse

/-- Consume a fenced code block: all lines up to and including the first
whose stripped form starts with the same fence (or to end of input). -/
def takeCodeLines (fence : Str) : List Str → (List Str × List Str)
  | [] => ([], [])
  | l :: rest =>
    if startsWithS fence (pyStrip l) then ([l], rest)
    else
      let (a, r) := takeCodeLines fence rest
      (l :: a, r)

/-- Consume list-block continuation lines: stop at the first blank line or
the first line that is neither an indented continuation nor a list marker. -/
def takeListLines : List Str → (List Str × List Str)
  | [] => ([], [])
  | l :: rest =>
    if pyStrip l = [] then ([], l :: rest)
    else if (decide (l ≠ []) && isWsChar l.headI) || listStartMatch l then
      let (a, r) := takeListLines rest
      (l :: a, r)
    else ([], l :: rest)

/-- Python `pat in s` (substring containment). -/
def containsSub (pat : Str) : Str → Bool
  | [] => List.isPrefixOf pat []
  | c :: rest => List.isPrefixOf pat (c :: rest) || containsSub pat rest

/-- `re.search(r"-{3,}", ·)`: the line contains three consecutive hyphens. -/
def hasHyphenRun (s : Str) : Bool := containsSub (strL ("---")) s

/-- The paragraph flush of `_iter_blocks`. -/
def flushParaBlocks (p : Nat) (stack : List (Nat × Str)) (para : List Str) : List MdBlock :=
  let s := pyStrip (joinWith (strL ("\n")) para)
  if s = [] then []
  else
    [{ text := s
       token_count := tcCount s
       section_path := sectionPathOf stack
       parent_section_path := parentSectionPathOf p stack
       block_type := btText }]

/-- The scanning loop of `TokenAwareChunker._iter_blocks`.  Fueled: every
iteration consumes at least one line, so any fuel of at least the number of
lines reproduces the Python `while` loop exactly. -/
def iterBlocksGo (p : Nat) : Nat → List Str → List (Nat × Str) → List Str → List MdBlock
  | 0, _, stack, para => flushParaBlocks p stack para
  | _ + 1, [], stack, para => flushParaBlocks p stack para
  | fuel + 1, line :: rest, stack, para =>
    let stripped := pyStrip line
    if stripped = [] then
      flushParaBlocks p stack para ++ iterBlocksGo p fuel rest stack []
    else
      match matchHeading line with
      | some (level, title) =>
        let stack2 := popStack stack level ++ [(level, title)]
        flushParaBlocks p stack para ++
          [{ text := stripped
             token_count := tcCount stripped
             section_path := sectionPathOf stack2
             parent_section_path := parentSectionPathOf p stack2
             block_type := btHeading
             heading_level := some level }] ++
          iterBlocksGo p fuel rest stack2 []
      | none =>
        if stripped = strL ("[IMAGE]") then
          flushParaBlocks p stack para ++
            [{ text := strL ("[IMAGE]")
               token_count := 1
               section_path := sectionPathOf stack
               parent_section_path := parentSectionPathOf p stack
               block_type := btImage }] ++
            iterBlocksGo p fuel rest stack []
        else if startsWithS (strL ("```")) stripped ∨ startsWithS (strL ("~~~")) stripped then
          let fence := stripped.take 3
          let (body, rem) := takeCodeLines fence rest
          let code := pyStrip (joinWith (strL ("\n")) (line :: body))
          flushParaBlocks p stack para ++
            [{ text := code
               token_count := tcCount code
               section_path := sectionPathOf stack
               parent_section_path := parentSectionPathOf p stack
               block_type := btCode }] ++
            iterBlocksGo p fuel rem stack []
        else if startsWithS (strL ("|")) stripped &&
            (match rest with
             | [] => false
             | nxt :: _ => startsWithS (strL ("|")) (pyStrip nxt) && hasHyphenRun (pyStrip nxt)) then
          match rest with
          | [] => flushParaBlocks p stack para  -- unreachable given the guard
          | nxt :: rest2 =>
            let more := rest2.takeWhile (fun l => startsWithS (strL ("|")) (pyStrip l))
            let rem := rest2.dropWhile (fun l => startsWithS (strL ("|")) (pyStrip l))
            let table := pyStrip (joinWith (strL ("\n")) (line :: nxt :: more))
            flushParaBlocks p stack para ++
              [{ text := table
                 token_count := tcCount table
                 section_path := sectionPathOf stack
                 parent_section_path := parentSectionPathOf p stack
                 block_type := btTable }] ++
              iterBlocksGo p fuel rem stack []
        else if listStartMatch line then
          let (more, rem) := takeListLines rest
          let lst := pyStrip (joinWith (strL ("\n")) (line :: more))
          flushParaBlocks p stack para ++
            [{ text := lst
               token_count := tcCount lst
               section_path := sectionPathOf stack
               parent_section_path := parentSectionPathOf p stack
               block_type := btList }] ++
            iterBlocksGo p fuel rem stack []
        else
          iterBlocksGo p fuel rest stack (para ++ [line])

/-- `TokenAwareChunker._iter_blocks`. -/
def iterBlocks (p : Nat) (text : Str) : List MdBlock :=
  let lines := pySplitLines text
  iterBlocksGo p (lines.length + 1) lines [] []

/-! ## Oversize splitting and chunk assembly -/

/-- `re.split(r"(?<=[.!?])\s+", ·)`: split after terminal punctuation that is
followed by whitespace, consuming the whitespace run (fueled scan). -/
def splitSentencesGo : Nat → Str → Str → List Str
  | 0, cur, l => [cur.reverse ++ l]
  | _ + 1, cur, [] => [cur.reverse]
  | fuel + 1, cur, c :: rest =>
    if (c = '.' || c = '!' || c = '?') &&
        (match rest with | [] => false | w :: _ => isWsChar w) then
      (c :: cur).reverse :: splitSentencesGo fuel [] (rest.dropWhile isWsChar)
    else splitSentencesGo fuel (c :: cur) rest

def splitSentences (l : Str) : List Str := splitSentencesGo (l.length + 1) [] l

/-- The hard character slicing `for j in range(0, len(s), step)` with
stripped, non-empty pieces kept. -/
def hardSlicesGo (step : Nat) : Nat → Str → List Str
  | 0, _ => []
  | _ + 1, [] => []
  | fuel + 1, s =>
    let piece := pyStrip (s.take step)
    (if piece = [] then [] else [piece]) ++ hardSlicesGo step fuel (s.drop step)

def hardSlices (step : Nat) (s : Str) : List Str := hardSlicesGo step (s.length + 1) s

/-- The sentence-greedy accumulation step inside `_split_big_text`. -/
def greedyStep (maxT : Nat) (acc : List Str × Str) (s : Str) : List Str × Str :=
  if s = [] then acc
  else
    let out := acc.1
    let cur := acc.2
    let cand := if cur = [] then s else pyStrip (cur ++ strL (" ") ++ s)
    if tcCount cand ≤ maxT then (out, cand)
    else
      let out2 := if cur ≠ [] then out ++ [cur] else out
      if tcCount s ≤ maxT then (out2, s)
      else (out2 ++ hardSlices (max 1 (maxT * 4)) s, [])

/-- `TokenAwareChunker._split_big_text`: paragraphs, then sentences (greedy
up to the budget), then hard character slices of `max_tokens * 4`. -/
def splitBigText (maxT : Nat) (block : Str) : List Str :=
  let parts := ((splitBlankRuns (pyStrip block)).map pyStrip).filter (· ≠ [])
  parts.foldl
    (fun out p =>
      if tcCount p ≤ maxT then out ++ [p]
      else
        let r := (splitSentences p).foldl (greedyStep maxT) (out, [])
        if r.2 ≠ [] then r.1 ++ [r.2] else r.1)
    []

/-- The block-expansion pass at the top of `TokenAwareChunker.chunk`: any
block over the budget is split; fragments keep the block type and section
metadata (the source's `table/code` arm and default arm perform the same
computation).  `heading_level` is not carried over (the dataclass default
`None` applies). -/
def expandBlocks (maxT : Nat) (blocks : List MdBlock) : List MdBlock :=
  blocks.foldl
    (fun acc b =>
      if b.token_count ≤ maxT then acc ++ [b]
      else
        acc ++ (splitBigText maxT b.text).map
          (fun pt =>
            { text := pt
              token_count := tcCount pt
              section_path := b.section_path
              parent_section_path := b.parent_section_path
              block_type := b.block_type }))
    []

/-- `section_paths` metadata: distinct consecutive non-falsy section paths. -/
def sectionPathsOf (blocks : List MdBlock) : List Str :=
  blocks.foldl
    (fun acc b =>
      match b.section_path with
      | none => acc
      | some sp => if sp = [] then acc else if acc.getLast? = some sp then acc else acc ++ [sp])
    []

/-- `block_types` metadata: consecutive-deduplicated block types. -/
def blockTypesOf (blocks : List MdBlock) : List Str :=
  blocks.foldl (fun acc b => if acc.getLast? = some b.block_type then acc else acc ++ [b.block_type]) []

/-- The assembler state threaded through `TokenAwareChunker.chunk`'s loop.
Each finished chunk is paired with the blocks it was flushed from (a proof
artifact; the projection to the chunk list is the Python behaviour). -/
structure AsmSt where
  chunks : List (Chunk × List MdBlock) := []
  cur : List MdBlock := []
  cur_tokens : Nat := 0
  idx : Nat := 0
  active : Option Str := none
deriving DecidableEq

/-- The `flush()` closure: join the accumulator with blank lines, recount,
and emit a chunk when the recount is at least 1. -/
def flushOut (idx : Nat) (active : Option Str) (cur : List MdBlock) :
    Option (Chunk × List MdBlock) :=
  if cur = [] then none
  else
    let joined := pyStrip (joinWith (strL ("\n\n")) (cur.map (·.text)))
    let t := tcCount joined
    if 1 ≤ t then
      let paths := sectionPathsOf cur
      some
        ({ index := idx
           text := joined
           token_count := t
           metadata :=
             { section_paths := paths
               primary_section_path := paths.head?
               parent_section_path := active
               block_types := blockTypesOf cur } },
         cur)
    else none

def flushSt (st : AsmSt) : AsmSt :=
  match flushOut st.idx st.active st.cur with
  | some cb => { st with chunks := st.chunks ++ [cb], idx := st.idx + 1, cur := [], cur_tokens := 0 }
  | none => { st with cur := [], cur_tokens := 0 }

/-- A heading at or above the parent-section level (the boundary test of the
assembly loop: `block_type == "heading" and heading_level is not None and
heading_level <= parent_section_level`). -/
def isBoundaryHeading (p : Nat) (b : MdBlock) : Bool :=
  decide (b.block_type = btHeading) &&
    (match b.heading_level with
     | some l => decide (l ≤ p)
     | none => false)

/-- One iteration of the assembly loop of `TokenAwareChunker.chunk`. -/
def asmStep (cfg : ChunkerCfg) (st : AsmSt) (b : MdBlock) : AsmSt :=
  let st1 :=
    if isBoundaryHeading cfg.parent_section_level b then
      { flushSt st with active := b.parent_section_path }
    else st
  let st2 := if st1.active = none then { st1 with active := b.parent_section_path } else st1
  let bt := b.token_count
  if st2.cur_tokens + bt ≤ cfg.max_tokens then
    { st2 with cur := st2.cur ++ [b], cur_tokens := st2.cur_tokens + bt }
  else
    let st3 := flushSt st2
    if decide (st3.chunks ≠ []) && decide (0 < cfg.overlap_tokens) &&
        decide ((st3.chunks.getLast?.map (fun cb => cb.1.metadata.parent_section_path)) =
          some st3.active) then
      let lastText := (st3.chunks.getLast?.map (fun cb => cb.1.text)).getD []
      let tl := pyStrip (tcTail lastText cfg.overlap_tokens)
      let newCur :=
        if tl ≠ [] then
          [{ text := tl
             token_count := tcCount tl
             section_path := none
             parent_section_path := st3.active
             block_type := btText }, b]
        else [b]
      { st3 with
        cur := newCur
        cur_tokens := tcCount (joinWith (strL ("\n\n")) (newCur.map (·.text))) }
    else { st3 with cur := [b], cur_tokens := bt }

/-- The assembly phase of `TokenAwareChunker.chunk` (after block expansion,
before the small-chunk merge), instrumented with each chunk's source blocks. -/
def assembleWithBlocks (cfg : ChunkerCfg) (blocks : List MdBlock) :
    List (Chunk × List MdBlock) :=
  (flushSt (blocks.foldl (asmStep cfg) {})).chunks

/-- `list(dict.fromkeys(...))`: deduplicate keeping first occurrences. -/
def dedupKeepFirst (l : List Str) : List Str :=
  l.foldl (fun acc x => if acc.contains x then acc else acc ++ [x]) []

/-- The small-tail-chunk merge loop at the end of `TokenAwareChunker.chunk`. -/
def mergeSmallStep (minT : Nat) (merged : List Chunk) (c : Chunk) : List Chunk :=
  match merged.getLast? with
  | some prev =>
    if c.token_count < minT ∧
        prev.metadata.parent_section_path = c.metadata.parent_section_path then
      let new_text := prev.text ++ strL ("\n\n") ++ c.text
      let new_tokens := tcCount new_text
      merged.dropLast ++
        [{ index := prev.index
           text := new_text
           token_count := new_tokens
           metadata :=
             { section_paths :=
                 dedupKeepFirst (prev.metadata.section_paths ++ c.metadata.section_paths)
               primary_section_path :=
                 pyOrOpt prev.metadata.primary_section_path c.metadata.primary_section_path
               parent_section_path :=
                 pyOrOpt prev.metadata.parent_section_path c.metadata.parent_section_path
               block_types :=
                 dedupKeepFirst (prev.metadata.block_types ++ c.metadata.block_types) } }]
    else merged ++ [c]
  | none => merged ++ [c]

def mergeSmall (minT : Nat) (chunks : List Chunk) : List Chunk :=
  chunks.foldl (mergeSmallStep minT) []

/-- Reindex a chunk list to dense indices `0..n-1`. -/
def reindexChunks (l : List Chunk) : List Chunk :=
  l.enum.map (fun ic => { ic.2 with index := ic.1 })

/-- `TokenAwareChunker.chunk` (heuristic token counter): parse, expand
oversized blocks, assemble, merge small tail chunks, reindex. -/
def chunkerChunk (cfg : ChunkerCfg) (text : Str) : List Chunk :=
  let blocks := expandBlocks cfg.max_tokens (iterBlocks cfg.parent_section_level text)
  let asm := assembleWithBlocks cfg blocks
  reindexChunks (mergeSmall cfg.min_tokens (asm.map (·.1)))

/-! ## Data model of `pipelines/chunk_filter.py` -/

def FRONT_MATTER_KEYWORDS : List Str :=
  [strL ("acknowledgements"), strL ("foreword"), strL ("publication"),
   strL ("publication team"), strL ("offices of the publication division"),
   strL ("all rights reserved"), strL ("isbn"), strL ("pd "),
   strL ("first edition"), strL ("reprinted"), strL ("revised edition"),
   strL ("textbook in"), strL ("national council of educational research"),
   strL ("textbook development committee"), strL ("chairperson"),
   strL ("chief advisor"), strL ("advisors"), strL ("team members"),
   strL ("member-coordinators")]

/-- `FilterConfig` (dataclass defaults included). -/
structure FilterCfg where
  enabled : Bool := true
  min_tokens : Nat := 40
  max_chunks_per_doc : Nat := 2000
  max_chunks_per_parent : Nat := 400
  drop_front_matter : Bool := true
  drop_image_only : Bool := true
  drop_boilerplate : Bool := true
deriving DecidableEq

/-- `FilterStats`.  `dropped_by_tag` is an insertion-ordered dict. -/
structure FilterStats where
  total_in : Nat
  total_out : Nat
  dropped : Nat
  dropped_by_tag : List (Str × Nat)
deriving DecidableEq

/-- `_sha(text)`: the SHA-256 digest used purely as an equality key, modelled
by the (injective, collision-free) identity on the hashed text. -/
def shaKey (t : Str) : Str := t

/-- `_looks_like_heading_only`. -/
def looksLikeHeadingOnly (text : Str) : Bool :=
  let t := pyStrip text
  startsWithS (strL ("#")) t && !(pyStrip t).contains '\n'

/-- `_is_image_only`. -/
def isImageOnly (text : Str) : Bool := pyStrip text = strL ("[IMAGE]")

/-- `_match_any_keyword`. -/
def matchAnyKeyword (hay : Str) (kws : List Str) : Bool :=
  let h := pyLower hay
  kws.any (fun k => containsSub k h)

/-- The regex word class `\w` (ASCII). -/
def isWordChar (c : Char) : Bool := c.isAlphanum || c = '_'

/-- Word boundary on the right of a literal pattern that ends in a word
character: the next character (if any) is a non-word character. -/
def rightBoundaryOk (rest : Str) : Bool :=
  match rest with
  | [] => true
  | c :: _ => !isWordChar c

/-- Does one of the `_BOILERPLATE_PATTERNS` match at this position?  The
first four are literal phrases wrapped in `\b...\b`; the fifth is
`\bphone\s*:\b` (note that the trailing `\b` after `:` requires a word
character to follow the colon). -/
def boilerplateAt (prev : Option Char) (l : Str) : Bool :=
  let leftOk := match prev with | none => true | some c => !isWordChar c
  leftOk &&
    ((List.isPrefixOf (strL ("all rights reserved")) l &&
        rightBoundaryOk (l.drop (strL ("all rights reserved")).length)) ||
     (List.isPrefixOf (strL ("no part of this publication may be reproduced")) l &&
        rightBoundaryOk (l.drop (strL ("no part of this publication may be reproduced")).length)) ||
     (List.isPrefixOf (strL ("printed on")) l &&
        rightBoundaryOk (l.drop (strL ("printed on")).length)) ||
     (List.isPrefixOf (strL ("published at")) l &&
        rightBoundaryOk (l.drop (strL ("published at")).length)) ||
     (List.isPrefixOf (strL ("phone")) l &&
        (match (l.drop 5).dropWhile isWsChar with
         | ':' :: d :: _ => isWordChar d
         | _ => false)))

def hasBoilerplateGo (prev : Option Char) : Str → Bool
  | [] => false
  | c :: rest => boilerplateAt prev (c :: rest) || hasBoilerplateGo (some c) rest

/-- `_has_boilerplate`: search the lowercased text for any pattern. -/
def hasBoilerplate (text : Str) : Bool := hasBoilerplateGo none (pyLower text)

def tagFrontMatter : Str := strL ("front_matter")
def tagBoilerplate : Str := strL ("boilerplate")
def tagImageOnly : Str := strL ("image_only")
def tagLowSignal : Str := strL ("low_signal")
def tagDuplicate : Str := strL ("duplicate")
def tagCapParent : Str := strL ("cap_parent")
def tagCapDoc : Str := strL ("cap_doc")

/-- `_compute_quality_score` (floats modelled as rationals; see the header
comment for why this is order-faithful here). -/
def computeQualityScore (token_count : Nat) (tags : List Str) : ℚ :=
  let s : ℚ := 1
  let s := if tags.contains tagFrontMatter then s - 7/10 else s
  let s := if tags.contains tagBoilerplate then s - 6/10 else s
  let s := if tags.contains tagImageOnly then s - 7/10 else s
  let s := if tags.contains tagDuplicate then s - 1 else s
  let s := if tags.contains tagLowSignal then s - 3/10 else s
  let s := if 200 ≤ token_count then s + 1/20 else s
  max 0 (min 1 s)

/-- The scan of `_merge_heading_with_next` (before its final reindex): a
heading-only chunk immediately followed by a chunk with the same
`parent_section_path` is merged into one chunk carrying the follower's
metadata plus a `merged_heading` mark, with token count
`max(len(text)//4, sum of the two counts)`. -/
def mergeHeadingAux : List Chunk → List Chunk
  | [] => []
  | [c] => [c]
  | c :: n :: rest =>
    if looksLikeHeadingOnly c.text ∧
        c.metadata.parent_section_path = n.metadata.parent_section_path then
      let merged_text := pyStrip c.text ++ strL ("\n\n") ++ pyStrip n.text
      let merged_tokens := max (merged_text.length / 4) (c.token_count + n.token_count)
      let mm := { n.metadata with merged_heading := some (n.metadata.merged_heading.getD true) }
      { index := c.index, text := merged_text, token_count := merged_tokens, metadata := mm } ::
        mergeHeadingAux rest
    else c :: mergeHeadingAux (n :: rest)

/-- `_merge_heading_with_next` (scan + dense reindex). -/
def mergeHeadingWithNext (chunks : List Chunk) : List Chunk :=
  reindexChunks (mergeHeadingAux chunks)

/-- Stable ascending insertion on strings (code-point lexicographic). -/
def strLeB : Str → Str → Bool
  | [], _ => true
  | _ :: _, [] => false
  | a :: as, b :: bs => if a = b then strLeB as bs else decide (a < b)

def sortStrsIns (x : Str) : List Str → List Str
  | [] => [x]
  | y :: ys => if strLeB x y then x :: y :: ys else y :: sortStrsIns x ys

/-- Python `sorted(set(l))` on strings. -/
def sortedUniqueStrs (l : List Str) : List Str :=
  (dedupKeepFirst l).foldr sortStrsIns []

/-- The per-chunk tag computation of the filter loop, in source order:
front_matter, boilerplate, image_only, low_signal, duplicate. -/
def tagsForChunk (cfg : FilterCfg) (seen : List Str) (c : Chunk) : List Str :=
  let parentS : Str :=
    (pyOrOpt c.metadata.parent_section_path c.metadata.primary_section_path).getD []
  let sectionTag := pyLower (pyStrip parentS)
  (if cfg.drop_front_matter && matchAnyKeyword sectionTag FRONT_MATTER_KEYWORDS then
      [tagFrontMatter] else []) ++
  (if cfg.drop_boilerplate && hasBoilerplate c.text then [tagBoilerplate] else []) ++
  (if cfg.drop_image_only && isImageOnly c.text then [tagImageOnly] else []) ++
  (if c.token_count < cfg.min_tokens then [tagLowSignal] else []) ++
  (if seen.contains (shaKey (pyStrip c.text)) then [tagDuplicate] else [])

/-- The tags that force a drop (`duplicate`/`front_matter`/`boilerplate`/
`image_only`; `low_signal` alone never drops). -/
def dropTags : List Str := [tagDuplicate, tagFrontMatter, tagBoilerplate, tagImageOnly]

/-- The non-duplicate drop reasons of a chunk (used to state order-dependence
of duplicate handling). -/
def dropsOwn (cfg : FilterCfg) (c : Chunk) : Bool :=
  (tagsForChunk cfg [] c).any (fun t => t = tagFrontMatter ∨ t = tagBoilerplate ∨ t = tagImageOnly)

/-- `dropped_by_tag[t] = dropped_by_tag.get(t, 0) + n` on the insertion
ordered dict. -/
def bumpTag (m : List (Str × Nat)) (k : Str) (n : Nat) : List (Str × Nat) :=
  if m.any (fun e => e.1 = k) then
    m.map (fun e => if e.1 = k then (e.1, e.2 + n) else e)
  else m ++ [(k, n)]

/-- `dropped_by_tag.get(t, 0)`. -/
def dmapGet (m : List (Str × Nat)) (k : Str) : Nat :=
  ((m.find? (fun e => decide (e.1 = k))).map (·.2)).getD 0

/-- The state/result of the tagging-and-dropping loop of `filter_chunks`. -/
structure LoopOut where
  kept : List Chunk
  seen : List Str
  dmap : List (Str × Nat)
deriving DecidableEq

/-- The per-chunk loop of `filter_chunks`: tag, score, decide drop; a kept
chunk's hash enters the seen-set only after the drop decision.  (The Python
`for t in set(tags)` iterates a tag list that never contains duplicates; the
iteration order only affects the insertion order of `dropped_by_tag` keys.) -/
def filterLoop (cfg : FilterCfg) : List Chunk → List Str → List (Str × Nat) → LoopOut
  | [], seen, dmap => { kept := [], seen := seen, dmap := dmap }
  | c :: rest, seen, dmap =>
    let tags := tagsForChunk cfg seen c
    let quality := computeQualityScore c.token_count tags
    let meta :=
      { c.metadata with
        tags := sortedUniqueStrs (c.metadata.tags ++ tags)
        quality_score := some quality }
    if tags.any (fun t => dropTags.contains t) then
      filterLoop cfg rest seen (tags.foldl (fun m t => bumpTag m t 1) dmap)
    else
      let r := filterLoop cfg rest (seen ++ [shaKey (pyStrip c.text)]) dmap
      { r with kept := { c with metadata := meta } :: r.kept }

/-- The grouping key `(c.metadata or {}).get("parent_section_path") or ""`. -/
def capKey (c : Chunk) : Str := (c.metadata.parent_section_path).getD []

/-- One step of building the insertion-ordered `by_parent` dict. -/
def groupAdd (acc : List (Str × List Chunk)) (c : Chunk) : List (Str × List Chunk) :=
  if acc.any (fun e => e.1 = capKey c) then
    acc.map (fun e => if e.1 = capKey c then (e.1, e.2 ++ [c]) else e)
  else acc ++ [(capKey c, [c])]

/-- `by_parent`: group kept chunks by parent key, insertion-ordered. -/
def groupByParent (l : List Chunk) : List (Str × List Chunk) := l.foldl groupAdd []

/-- The sort key order of the capping passes: quality score descending, ties
broken by token count descending; total ties keep original order (Python's
`sorted(..., reverse=True)` is stable). -/
def capRel (a b : Chunk) : Prop :=
  (b.metadata.quality_score).getD 0 < (a.metadata.quality_score).getD 0 ∨
    ((a.metadata.quality_score).getD 0 = (b.metadata.quality_score).getD 0 ∧
      b.token_count ≤ a.token_count)

instance : DecidableRel capRel := fun a b =>
  inferInstanceAs (Decidable
    ((b.metadata.quality_score).getD 0 < (a.metadata.quality_score).getD 0 ∨
      ((a.metadata.quality_score).getD 0 = (b.metadata.quality_score).getD 0 ∧
        b.token_count ≤ a.token_count)))

/-- The stable descending sort used by both capping passes. -/
def capSort (l : List Chunk) : List Chunk := List.insertionSort capRel l

instance : IsTotal Chunk capRel := ⟨by
  intro a b
  unfold capRel
  rcases lt_trichotomy ((a.metadata.quality_score).getD 0) ((b.metadata.quality_score).getD 0)
    with h | h | h
  · exact Or.inr (Or.inl h)
  · rcases Nat.le_total b.token_count a.token_count with ht | ht
    · exact Or.inl (Or.inr ⟨h, ht⟩)
    · exact Or.inr (Or.inr ⟨h.symm, ht⟩)
  · exact Or.inl (Or.inl h)⟩

instance : IsTrans Chunk capRel := ⟨by
  intro a b c hab hbc
  unfold capRel at hab hbc ⊢
  rcases hab with h1 | ⟨he1, ht1⟩ <;> rcases hbc with h2 | ⟨he2, ht2⟩
  · exact Or.inl (h2.trans h1)
  · exact Or.inl (he2 ▸ h1)
  · exact Or.inl (he1 ▸ h2)
  · exact Or.inr ⟨he1.trans he2, ht2.trans ht1⟩⟩

/-- The per-parent capping pass: groups at or under the limit pass through;
oversized groups keep (in original order) exactly the chunks whose content
hash is among the top-N of the sorted group, counting each excluded chunk
under `cap_parent`. -/
def capParentStage (cfg : FilterCfg) (kept : List Chunk) (dmap : List (Str × Nat)) :
    List Chunk × List (Str × Nat) :=
  (groupByParent kept).foldl
    (fun acc kg =>
      let g := kg.2
      if g.length ≤ cfg.max_chunks_per_parent then (acc.1 ++ g, acc.2)
      else
        let keepTexts := ((capSort g).take cfg.max_chunks_per_parent).map
          (fun c => shaKey (pyStrip c.text))
        g.foldl
          (fun acc2 c =>
            if keepTexts.contains (shaKey (pyStrip c.text)) then (acc2.1 ++ [c], acc2.2)
            else (acc2.1, bumpTag acc2.2 tagCapParent 1))
          acc)
    ([], dmap)

/-- What the per-parent capping pass does to one group (a proof artifact
naming the body of `capParentStage`): pass small groups through, otherwise
keep the chunks whose content hash is among the top-N of the sorted group. -/
def capProcessGroup (cfg : FilterCfg) (g : List Chunk) : List Chunk :=
  if g.length ≤ cfg.max_chunks_per_parent then g
  else g.filter (fun c =>
    (((capSort g).take cfg.max_chunks_per_parent).map
      (fun c' => shaKey (pyStrip c'.text))).contains (shaKey (pyStrip c.text)))

/-- How many chunks the per-parent capping pass drops from one group. -/
def capGroupDropped (cfg : FilterCfg) (g : List Chunk) : Nat :=
  if g.length ≤ cfg.max_chunks_per_parent then 0
  else (g.filter (fun c =>
    !(((capSort g).take cfg.max_chunks_per_parent).map
      (fun c' => shaKey (pyStrip c'.text))).contains (shaKey (pyStrip c.text)))).length

/-- The whole-document capping pass: when over `max_chunks_per_doc`, the
output is the top-N of the document-wide sort (in sorted order, as in the
source). -/
def capDocStage (cfg : FilterCfg) (l : List Chunk) (dmap : List (Str × Nat)) :
    List Chunk × List (Str × Nat) :=
  if cfg.max_chunks_per_doc < l.length then
    let s := capSort l
    let capped := s.take cfg.max_chunks_per_doc
    (capped, bumpTag dmap tagCapDoc (s.length - capped.length))
  else (l, dmap)

/-- `filter_chunks`.  (`dropped = total_in - total_out` is a natural-number
subtraction here; the development proves `total_out ≤ total_in`, so it agrees
with Python's integer subtraction.) -/
def filter_chunks (cfg : FilterCfg) (chunks : List Chunk) : List Chunk × FilterStats :=
  if ¬cfg.enabled then
    (chunks,
     { total_in := chunks.length, total_out := chunks.length, dropped := 0, dropped_by_tag := [] })
  else
    let merged := mergeHeadingWithNext chunks
    let lo := filterLoop cfg merged [] []
    let pc := capParentStage cfg lo.kept lo.dmap
    let dc := capDocStage cfg pc.1 pc.2
    let out := reindexChunks dc.1
    (out,
     { total_in := merged.length
       total_out := out.length
       dropped := merged.length - out.length
       dropped_by_tag := dc.2 })

/-- The full single-document pipeline as invoked by the ingestion job:
normalize, cleanup, chunk, filter (heuristic token counter throughout). -/
def runPipeline (ccfg : ChunkerCfg) (fcfg : FilterCfg) (md : Str) :
    List Chunk × FilterStats :=
  filter_chunks fcfg (chunkerChunk ccfg (cleanup_markdown (normalize_markdown md)))

/-- Modelled from the spec (§4.6 "Pre-pass (before assembly): heading-merge"):
the specification locates the heading-merge before chunk assembly, operating
on parsed blocks — "if a heading-only block (no body text, i.e. equals a
single heading line) is immediately followed by a block in the same parent
section, merge their texts into one block carrying the following block's
metadata".  No such block-level pass exists in the source (the source merges
assembled *chunks* inside `filter_chunks`); this definition exists only to
compare the specified placement against the implemented one. -/
def specMergeHeadingBlocks : List MdBlock → List MdBlock
  | [] => []
  | [b] => [b]
  | b :: n :: rest =>
    if b.block_type = btHeading ∧ b.parent_section_path = n.parent_section_path then
      let t := b.text ++ strL ("\n\n") ++ n.text
      { text := t
        token_count := tcCount t
        section_path := n.section_path
        parent_section_path := n.parent_section_path
        block_type := n.block_type } :: specMergeHeadingBlocks rest
    else b :: specMergeHeadingBlocks (n :: rest)

/-- Modelled from the spec: `TokenAwareChunker.chunk` as the specification
describes it, with the heading-merge as a block-level pre-pass before
assembly (everything else as implemented). -/
def specClaimedChunkerChunk (cfg : ChunkerCfg) (text : Str) : List Chunk :=
  let blocks :=
    expandBlocks cfg.max_tokens
      (specMergeHeadingBlocks (iterBlocks cfg.parent_section_level text))
  let asm := assembleWithBlocks cfg blocks
  reindexChunks (mergeSmall cfg.min_tokens (asm.map (·.1)))

/-- Definitional decomposition of `asmStep` (for the proofs below):
the parent-boundary / first-block handling producing the intermediate
state `st2` of the loop body.  `asmStep_eq_mid_tail` below shows
`asmStep cfg st b = asmTail cfg b (asmMid cfg st b)` by `rfl`. -/
def asmMid (cfg : ChunkerCfg) (st : AsmSt) (b : MdBlock) : AsmSt :=
  let st1 :=
    if isBoundaryHeading cfg.parent_section_level b then
      { flushSt st with active := b.parent_section_path }
    else st
  if st1.active = none then { st1 with active := b.parent_section_path } else st1

/-- Definitional decomposition of `asmStep`: the token-budget /
overflow-overlap handling of the loop body, applied to the state after
`asmMid`. -/
def asmTail (cfg : ChunkerCfg) (b : MdBlock) (st2 : AsmSt) : AsmSt :=
  let bt := b.token_count
  if st2.cur_tokens + bt ≤ cfg.max_tokens then
    { st2 with cur := st2.cur ++ [b], cur_tokens := st2.cur_tokens + bt }
  else
    let st3 := flushSt st2
    if decide (st3.chunks ≠ []) && decide (0 < cfg.overlap_tokens) &&
        decide ((st3.chunks.getLast?.map (fun cb => cb.1.metadata.parent_section_path)) =
          some st3.active) then
      let lastText := (st3.chunks.getLast?.map (fun cb => cb.1.text)).getD []
      let tl := pyStrip (tcTail lastText cfg.overlap_tokens)
      let newCur :=
        if tl ≠ [] then
          [{ text := tl
             token_count := tcCount tl
             section_path := none
             parent_section_path := st3.active
             block_type := btText }, b]
        else [b]
      { st3 with
        cur := newCur
        cur_tokens := tcCount (joinWith (strL ("\n\n")) (newCur.map (·.text))) }
    else { st3 with cur := [b], cur_tokens := bt }

/-- The parent-locality invariant of the instrumented assembler output:
every constituent block of a chunk carries the chunk's recorded
`parent_section_path` (this subsumes the overlap fragment, which is tagged
with the new chunk's parent path). -/
def ChunksOk (l : List (Chunk × List MdBlock)) : Prop :=
  ∀ cb ∈ l, ∀ x ∈ cb.2, x.parent_section_path = cb.1.metadata.parent_section_path

/-- The hypothesis under which chunk assembly preserves parent locality:
whenever two consecutive blocks carry different `parent_section_path`s, the
second is a heading at or above the parent-section level.  Parser output
satisfies this except in the deep-start fallback of `_parent_section_path`
(see the C2 counterexample). -/
def ParentChangeRel (p : Nat) (a b : MdBlock) : Prop :=
  a.parent_section_path ≠ b.parent_section_path → isBoundaryHeading p b = true

instance (p : Nat) : DecidableRel (ParentChangeRel p) := fun a b =>
  inferInstanceAs (Decidable
    (a.parent_section_path ≠ b.parent_section_path → isBoundaryHeading p b = true))

/-- All adjacent entries of the list are equal (i.e. all entries are equal). -/
def allEqB : List (Option Str) → Bool
  | [] => true
  | [_] => true
  | a :: b :: rest => decide (a = b) && allEqB (b :: rest)

/-- "All entries equal except (at most) one exception at some position":
the weakest reading of the claim's single-overlap-fragment allowance. -/
def allSameExceptOneB (ps : List (Option Str)) : Bool :=
  (List.range (ps.length + 1)).any (fun j => allEqB (ps.eraseIdx j))

/-- The invariant every chunk emitted by the assembler's `flush()` satisfies:
its token count is the recount of its (stripped) text, and it is non-empty. -/
def GoodChunk (c : Chunk) : Prop :=
  c.token_count = tcCount c.text ∧ pyStrip c.text = c.text ∧ 1 ≤ c.token_count

/-- The adjacency invariant established by the small-chunk merge: a chunk
below the token minimum is never directly preceded by a chunk of the same
parent section. -/
def SmallOkRel (minT : Nat) (a b : Chunk) : Prop :=
  b.token_count < minT → a.metadata.parent_section_path ≠ b.metadata.parent_section_path

/-- Metadata carrying only a parent section path (concrete-instance helper). -/
def mkMetaP (p : Str) : ChunkMeta :=
  { parent_section_path := some p }

/-- A plain one-line chunk used in concrete instances. -/
def wChunkA : Chunk :=
  { index := 0
    text := strL ("hello world")
    token_count := 2
    metadata := {} }

/-- A heading-only chunk (concrete instance for the heading-merge pre-pass). -/
def wHeadChunk : Chunk :=
  { index := 0
    text := strL ("# A")
    token_count := 1
    metadata := mkMetaP (strL ("A")) }

/-- The body chunk following `wHeadChunk` in the same parent section. -/
def wBodyChunk : Chunk :=
  { index := 1
    text := strL ("bc")
    token_count := 1
    metadata := mkMetaP (strL ("A")) }

/-- First of two byte-identical chunks (concrete instance for dedup). -/
def wDupA : Chunk :=
  { index := 0
    text := strL ("same text here")
    token_count := 3
    metadata := {} }

/-- Second of two byte-identical chunks (concrete instance for dedup). -/
def wDupB : Chunk :=
  { index := 1
    text := strL ("same text here")
    token_count := 3
    metadata := {} }

/-- A filter configuration with tight capping limits (concrete instance). -/
def wCapCfg : FilterCfg :=
  { min_tokens := 0
    max_chunks_per_doc := 1
    max_chunks_per_parent := 1 }

/-- Three chunks, two sharing a parent section (concrete capping instance). -/
def wCapChunks : List Chunk :=
  [{ index := 0
     text := strL ("alpha text")
     token_count := 5
     metadata := mkMetaP (strL ("P")) },
   { index := 1
     text := strL ("beta longer text")
     token_count := 9
     metadata := mkMetaP (strL ("P")) },
   { index := 2
     text := strL ("gamma")
     token_count := 4
     metadata := mkMetaP (strL ("Q")) }]

/-! ## Basic lemmas about the string model -/

theorem length_dropWhile_le (p : Char → Bool) (l : Str) :
    (l.dropWhile p).length ≤ l.length := by
  induction l with
  | nil => simp [List.dropWhile]
  | cons c t ih =>
    simp only [List.dropWhile]
    split
    · exact Nat.le_succ_of_le ih
    · simp

theorem pyLStrip_eq_self_of_strip {a : Str} (h : pyStrip a = a) : pyLStrip a = a := by
  have h1 : (pyLStrip a).length ≤ a.length := length_dropWhile_le _ _
  have h2 : (pyStrip a).length ≤ (pyLStrip a).length := by
    unfold pyStrip pyRStrip
    simpa using length_dropWhile_le isWsChar (pyLStrip a).reverse
  have hlen : (pyLStrip a).length = a.length := by
    rw [h] at h2; omega
  unfold pyLStrip at hlen ⊢
  exact (List.dropWhile_suffix isWsChar).eq_of_length hlen

theorem pyRStrip_eq_self_of_strip {a : Str} (h : pyStrip a = a) : pyRStrip a = a := by
  have hl := pyLStrip_eq_self_of_strip h
  unfold pyStrip at h
  rw [hl] at h
  exact h

theorem head_not_ws_of_lstrip {c : Char} {t : Str} (h : pyLStrip (c :: t) = c :: t) :
    isWsChar c = false := by
  by_cases hc : isWsChar c = true
  · exfalso
    unfold pyLStrip at h
    rw [List.dropWhile_cons_of_pos hc] at h
    have := length_dropWhile_le isWsChar t
    have := congrArg List.length h
    simp at this
    omega
  · simpa using hc

theorem pyLStrip_append {a : Str} (h : pyLStrip a = a) (ha : a ≠ []) (x : Str) :
    pyLStrip (a ++ x) = a ++ x := by
  cases a with
  | nil => exact absurd rfl ha
  | cons c t =>
    have hc := head_not_ws_of_lstrip h
    unfold pyLStrip
    simp [List.dropWhile_cons, hc]

theorem pyRStrip_append {b : Str} (h : pyRStrip b = b) (hb : b ≠ []) (x : Str) :
    pyRStrip (x ++ b) = x ++ b := by
  unfold pyRStrip at h ⊢
  have hrev : pyLStrip b.reverse = b.reverse := by
    unfold pyLStrip
    have := congrArg List.reverse h
    simpa using this
  have hbr : b.reverse ≠ [] := by simpa using hb
  have := pyLStrip_append hrev hbr x.reverse
  unfold pyLStrip at this
  rw [List.reverse_append, this]
  simp

theorem pyStrip_append3 {a b : Str} (m : Str) (ha : pyStrip a = a) (hb : pyStrip b = b)
    (ha' : a ≠ []) (hb' : b ≠ []) : pyStrip (a ++ m ++ b) = a ++ m ++ b := by
  unfold pyStrip
  rw [List.append_assoc]
  rw [pyLStrip_append (pyLStrip_eq_self_of_strip ha) ha' (m ++ b)]
  rw [← List.append_assoc]
  exact pyRStrip_append (pyRStrip_eq_self_of_strip hb) hb' (a ++ m)

theorem pyRStrip_front (l : Str) : pyRStrip l <+: l := by
  unfold pyRStrip
  rcases (List.dropWhile_suffix isWsChar : _ <:+ l.reverse) with ⟨r, hr⟩
  exact ⟨r.reverse, by simpa using congrArg List.reverse hr⟩

theorem pyLStrip_eq_self_of_prefix {l q : Str} (h : pyLStrip l = l) (hq : q <+: l) :
    pyLStrip q = q := by
  cases q with
  | nil => rfl
  | cons c t =>
    rcases hq with ⟨r, hr⟩
    have : pyLStrip (c :: (t ++ r)) = c :: (t ++ r) := by
      rw [List.cons_append] at hr
      rw [hr]; exact h
    have hc := head_not_ws_of_lstrip this
    unfold pyLStrip
    simp [List.dropWhile_cons, hc]

theorem pyLStrip_idem (l : Str) : pyLStrip (pyLStrip l) = pyLStrip l := by
  unfold pyLStrip
  induction l with
  | nil => simp
  | cons c t ih =>
    by_cases hc : isWsChar c = true
    · simpa [List.dropWhile_cons, hc] using ih
    · simp [List.dropWhile_cons, hc]

theorem pyRStrip_idem (l : Str) : pyRStrip (pyRStrip l) = pyRStrip l := by
  unfold pyRStrip
  rw [List.reverse_reverse]
  have h := pyLStrip_idem l.reverse
  unfold pyLStrip at h
  rw [h]

theorem pyStrip_idem (l : Str) : pyStrip (pyStrip l) = pyStrip l := by
  have h1 : pyLStrip (pyStrip l) = pyStrip l := by
    have hfix : pyLStrip (pyLStrip l) = pyLStrip l := pyLStrip_idem l
    exact pyLStrip_eq_self_of_prefix hfix (pyRStrip_front (pyLStrip l))
  show pyRStrip (pyLStrip (pyStrip l)) = pyStrip l
  rw [h1]
  exact pyRStrip_idem (pyLStrip l)

theorem tcCount_pyStrip (t : Str) : tcCount (pyStrip t) = tcCount t := by
  unfold tcCount
  rw [pyStrip_idem]

theorem tcCount_eq_zero_iff {t : Str} : tcCount t = 0 ↔ pyStrip t = [] := by
  show (if pyStrip t = [] then 0 else max 1 ((pyStrip t).length / 4)) = 0 ↔ pyStrip t = []
  by_cases h : pyStrip t = []
  · simp [h]
  · have h1 : 1 ≤ max 1 ((pyStrip t).length / 4) := le_max_left _ _
    rw [if_neg h]
    constructor
    · intro hz; omega
    · intro hh; exact absurd hh h

theorem tcCount_pos_of_strip_ne {t : Str} (h : pyStrip t ≠ []) : 1 ≤ tcCount t := by
  have : tcCount t ≠ 0 := fun hz => h (tcCount_eq_zero_iff.mp hz)
  omega

theorem tcCount_le_append3 {a b : Str} (m : Str) (ha : pyStrip a = a) (hb : pyStrip b = b)
    (ha' : a ≠ []) (hb' : b ≠ []) : tcCount a ≤ tcCount (a ++ m ++ b) := by
  show (if pyStrip a = [] then 0 else max 1 ((pyStrip a).length / 4)) ≤
    (if pyStrip (a ++ m ++ b) = [] then 0 else max 1 ((pyStrip (a ++ m ++ b)).length / 4))
  rw [pyStrip_append3 m ha hb ha' hb', ha]
  rw [if_neg ha', if_neg (show ¬(a ++ m ++ b = []) by simp [ha'])]
  have hlen : a.length ≤ (a ++ m ++ b).length := by
    rw [List.length_append, List.length_append]; omega
  exact max_le_max (le_refl 1) (Nat.div_le_div_right hlen)

/-! ## Reindexing lemmas -/

theorem reindexChunks_length (l : List Chunk) : (reindexChunks l).length = l.length := by
  simp [reindexChunks]

theorem mem_reindexChunks {c : Chunk} {l : List Chunk} (h : c ∈ reindexChunks l) :
    ∃ c' ∈ l, c.text = c'.text ∧ c.token_count = c'.token_count ∧ c.metadata = c'.metadata := by
  unfold reindexChunks at h
  rcases List.mem_map.mp h with ⟨ic, hmem, hc⟩
  have hsnd : ic.2 ∈ l := by
    have := List.enum_map_snd l
    have : ic.2 ∈ l.enum.map Prod.snd := List.mem_map_of_mem Prod.snd hmem
    simpa [List.enum_map_snd] using this
  exact ⟨ic.2, hsnd, by rw [← hc], by rw [← hc], by rw [← hc]⟩

theorem reindexChunks_map_index (l : List Chunk) :
    (reindexChunks l).map (fun c => c.index) = List.range l.length := by
  unfold reindexChunks
  rw [List.map_map]
  have : ((fun c => c.index) ∘ fun ic : Nat × Chunk => { ic.2 with index := ic.1 }) =
      Prod.fst := by
    funext ic; rfl
  rw [this, List.enum_map_fst]

theorem chain'_reindexChunks (R : Chunk → Chunk → Prop)
    (hR : ∀ a b i j, R a b → R { a with index := i } { b with index := j })
    {l : List Chunk} (h : l.Chain' R) : (reindexChunks l).Chain' R := by
  unfold reindexChunks
  rw [List.chain'_map]
  have h2 : l.enum.Chain' (fun x y : Nat × Chunk => R x.2 y.2) := by
    have h3 : (l.enum.map Prod.snd).Chain' R := by rw [List.enum_map_snd]; exact h
    rw [List.chain'_map] at h3
    exact h3
  exact h2.imp (fun a b hab => hR a.2 b.2 a.1 b.1 hab)

/-! ## Assembly invariants -/

theorem GoodChunk.text_ne {c : Chunk} (h : GoodChunk c) : c.text ≠ [] := by
  intro hnil
  rcases h with ⟨h1, _, h3⟩
  rw [hnil] at h1
  have : tcCount [] = 0 := by simp [tcCount, pyStrip, pyLStrip, pyRStrip]
  omega

theorem flushOut_good {idx : Nat} {act : Option Str} {cur : List MdBlock}
    {cb : Chunk × List MdBlock} (h : flushOut idx act cur = some cb) :
    GoodChunk cb.1 ∧ cb.1.metadata.parent_section_path = act := by
  unfold flushOut at h
  by_cases hc : cur = []
  · rw [if_pos hc] at h; cases h
  · rw [if_neg hc] at h
    set joined := pyStrip (joinWith (strL ("\n\n")) (cur.map (·.text))) with hj
    by_cases ht : 1 ≤ tcCount joined
    · rw [if_pos ht] at h
      cases h
      refine ⟨⟨?_, ?_, ?_⟩, rfl⟩
      · show tcCount joined = tcCount joined; rfl
      · show pyStrip joined = joined
        rw [hj]; exact pyStrip_idem _
      · exact ht
    · rw [if_neg ht] at h; cases h

theorem flushSt_good {st : AsmSt} (h : ∀ cb ∈ st.chunks, GoodChunk cb.1) :
    ∀ cb ∈ (flushSt st).chunks, GoodChunk cb.1 := by
  unfold flushSt
  cases hf : flushOut st.idx st.active st.cur with
  | none => simpa using h
  | some cb0 =>
    intro cb hcb
    simp only [List.mem_append, List.mem_singleton] at hcb
    rcases hcb with hcb | hcb
    · exact h cb hcb
    · rw [hcb]; exact (flushOut_good hf).1

theorem asmStep_good {cfg : ChunkerCfg} {st : AsmSt} {b : MdBlock}
    (h : ∀ cb ∈ st.chunks, GoodChunk cb.1) :
    ∀ cb ∈ (asmStep cfg st b).chunks, GoodChunk cb.1 := by
  unfold asmStep
  dsimp only
  split_ifs <;>
    first
      | exact h
      | exact flushSt_good h
      | exact flushSt_good (flushSt_good h)

theorem assemble_good (cfg : ChunkerCfg) (blocks : List MdBlock) :
    ∀ cb ∈ assembleWithBlocks cfg blocks, GoodChunk cb.1 := by
  unfold assembleWithBlocks
  have main : ∀ (bs : List MdBlock) (st : AsmSt), (∀ cb ∈ st.chunks, GoodChunk cb.1) →
      ∀ cb ∈ (bs.foldl (asmStep cfg) st).chunks, GoodChunk cb.1 := by
    intro bs
    induction bs with
    | nil => intro st h; simpa using h
    | cons b rest ih =>
      intro st h
      exact ih (asmStep cfg st b) (asmStep_good h)
  exact flushSt_good (main blocks {} (by simp))

/-! ## Small-chunk merge invariants -/

theorem pyOrOpt_self (a : Option Str) : pyOrOpt a a = a := by
  cases a with
  | none => rfl
  | some s =>
    show (if s = [] then some s else some s) = some s
    split <;> rfl

theorem mergeSmallStep_inv (minT : Nat) {acc : List Chunk} {c : Chunk}
    (hG : ∀ x ∈ acc, GoodChunk x) (hC : acc.Chain' (SmallOkRel minT)) (hc : GoodChunk c) :
    (∀ x ∈ mergeSmallStep minT acc c, GoodChunk x) ∧
      (mergeSmallStep minT acc c).Chain' (SmallOkRel minT) := by
  cases hlast : acc.getLast? with
  | none =>
    have hnil : acc = [] := by
      cases acc with
      | nil => rfl
      | cons a t => simp at hlast
    subst hnil
    constructor
    · intro x hx
      simp only [mergeSmallStep, List.getLast?_nil, List.nil_append, List.mem_singleton] at hx
      rw [hx]; exact hc
    · simp [mergeSmallStep]
  | some prev =>
    have hane : acc ≠ [] := by
      intro h; rw [h] at hlast; simp at hlast
    have hgl : acc.getLast hane = prev := by
      have h1 := List.getLast?_eq_getLast acc hane
      rw [hlast] at h1
      exact (Option.some_inj.mp h1).symm
    have hsplit : acc.dropLast ++ [prev] = acc := by
      rw [← hgl]; exact List.dropLast_append_getLast hane
    have hprevmem : prev ∈ acc := by
      rw [← hsplit]; exact List.mem_append_right _ (List.mem_singleton_self prev)
    have hprevG : GoodChunk prev := hG prev hprevmem
    simp only [mergeSmallStep, hlast]
    split_ifs with hcond
    · -- merge the small chunk into `prev`
      rcases hcond with ⟨hsmall, hpar⟩
      set newText := prev.text ++ strL ("\n\n") ++ c.text with hnt
      have hstripNew : pyStrip newText = newText :=
        pyStrip_append3 _ hprevG.2.1 hc.2.1 hprevG.text_ne hc.text_ne
      have hmono : tcCount prev.text ≤ tcCount newText :=
        tcCount_le_append3 _ hprevG.2.1 hc.2.1 hprevG.text_ne hc.text_ne
      have hGnew : GoodChunk
          { index := prev.index, text := newText, token_count := tcCount newText,
            metadata :=
              { section_paths :=
                  dedupKeepFirst (prev.metadata.section_paths ++ c.metadata.section_paths)
                primary_section_path :=
                  pyOrOpt prev.metadata.primary_section_path c.metadata.primary_section_path
                parent_section_path :=
                  pyOrOpt prev.metadata.parent_section_path c.metadata.parent_section_path
                block_types :=
                  dedupKeepFirst (prev.metadata.block_types ++ c.metadata.block_types) } } := by
        refine ⟨rfl, hstripNew, ?_⟩
        show 1 ≤ tcCount newText
        have h1 := hprevG.2.2
        have h2 := hprevG.1
        omega
      constructor
      · intro x hx
        rcases List.mem_append.mp hx with hx | hx
        · exact hG x (by rw [← hsplit]; exact List.mem_append_left _ hx)
        · rw [List.mem_singleton.mp hx]; exact hGnew
      · -- chain invariant for `dropLast ++ [merged]`
        have hCsplit := hC
        rw [← hsplit] at hCsplit
        rcases List.chain'_append.mp hCsplit with ⟨hd, _, hrel⟩
        rw [List.chain'_append]
        refine ⟨hd, List.chain'_singleton _, ?_⟩
        intro x hx y hy
        rw [List.head?_cons, Option.mem_def, Option.some_inj] at hy
        subst hy
        intro hsmallNew
        have hparEq :
            pyOrOpt prev.metadata.parent_section_path c.metadata.parent_section_path =
              prev.metadata.parent_section_path := by
          rw [hpar]; exact pyOrOpt_self _
        show x.metadata.parent_section_path ≠ _
        simp only [hparEq]
        have hprevSmall : prev.token_count < minT := by
          have := hprevG.1
          simp only at hsmallNew
          omega
        exact hrel x hx prev (by simp) hprevSmall
    · -- keep the chunk as its own
      constructor
      · intro x hx
        rcases List.mem_append.mp hx with hx | hx
        · exact hG x hx
        · rw [List.mem_singleton.mp hx]; exact hc
      · rw [List.chain'_append]
        refine ⟨hC, List.chain'_singleton _, ?_⟩
        intro x hx y hy
        rw [List.head?_cons, Option.mem_def, Option.some_inj] at hy
        subst hy
        rw [Option.mem_def, hlast, Option.some_inj] at hx
        subst hx
        intro hsmall
        intro hpar
        exact hcond ⟨hsmall, hpar⟩

theorem mergeSmall_inv (minT : Nat) (l : List Chunk) (hl : ∀ c ∈ l, GoodChunk c) :
    (∀ c ∈ mergeSmall minT l, GoodChunk c) ∧
      (mergeSmall minT l).Chain' (SmallOkRel minT) := by
  unfold mergeSmall
  have main : ∀ (l' : List Chunk), (∀ c ∈ l', GoodChunk c) →
      ∀ acc, (∀ x ∈ acc, GoodChunk x) → acc.Chain' (SmallOkRel minT) →
        (∀ c ∈ l'.foldl (mergeSmallStep minT) acc, GoodChunk c) ∧
          (l'.foldl (mergeSmallStep minT) acc).Chain' (SmallOkRel minT) := by
    intro l'
    induction l' with
    | nil => intro _ acc hG hC; exact ⟨hG, hC⟩
    | cons c rest ih =>
      intro hl' acc hG hC
      have hc : GoodChunk c := hl' c (List.mem_cons_self c rest)
      have hstep := mergeSmallStep_inv minT hG hC hc
      exact ih (fun x hx => hl' x (List.mem_cons_of_mem c hx)) _ hstep.1 hstep.2
  exact main l hl [] (by simp) (by simp)

theorem chunkerChunk_good (cfg : ChunkerCfg) (text : Str) :
    ∀ c ∈ chunkerChunk cfg text, GoodChunk c := by
  unfold chunkerChunk
  intro c hc
  rcases mem_reindexChunks hc with ⟨c', hc', htext, htok, hmeta⟩
  have hGm : ∀ x ∈ mergeSmall cfg.min_tokens
      ((assembleWithBlocks cfg
        (expandBlocks cfg.max_tokens (iterBlocks cfg.parent_section_level text))).map (·.1)),
      GoodChunk x := by
    refine (mergeSmall_inv _ _ ?_).1
    intro x hx
    rcases List.mem_map.mp hx with ⟨cb, hcb, hcbx⟩
    rw [← hcbx]
    exact (assemble_good _ _ cb hcb)
  have hG := hGm c' hc'
  exact ⟨by rw [htext, htok]; exact hG.1, by rw [htext]; exact hG.2.1, by rw [htok]; exact hG.2.2⟩

/-! ## Claim C3 -/

/-- C3 (amended): after the post-assembly small-chunk merge pass of
`TokenAwareChunker.chunk`, a chunk whose token count is below `min_tokens` is
never *immediately preceded* by a chunk with the same parent section path.
The claim's stronger exception — "unless it is the only chunk whose metadata
carries its parent_section_path" — does not hold: when a parent path recurs
later in the document (e.g. a duplicated heading title), a small chunk whose
immediate predecessor belongs to a different parent survives even though
other chunks carry its parent path (see the counterexample). -/
theorem c3_small_merge_amended (cfg : ChunkerCfg) (text : Str) :
    (chunkerChunk cfg text).Chain' (SmallOkRel cfg.min_tokens) := by
  unfold chunkerChunk
  apply chain'_reindexChunks
  · intro a b i j hab
    exact hab
  · refine (mergeSmall_inv _ _ ?_).2
    intro x hx
    rcases List.mem_map.mp hx with ⟨cb, hcb, hcbx⟩
    rw [← hcbx]
    exact assemble_good _ _ cb hcb

/-- C3 counterexample: on
`"# A\n\nab\n\n# B\n\nabcdefghijkl\n\n# A\n\ncd"` with `min_tokens = 3`,
`max_tokens = 500`, the output contains a chunk below `min_tokens`
(the final `"# A\n\ncd"`, 1 token) that is *not* the only chunk whose
metadata carries its parent section path `"A"` — the first chunk carries the
same path — refuting the claim as stated. -/
theorem c3_claim_counterexample :
    ((chunkerChunk ⟨3, 500, 0, 2⟩
        (strL ("# A\n\nab\n\n# B\n\nabcdefghijkl\n\n# A\n\ncd"))).any
      (fun c =>
        decide (c.token_count < 3) &&
          decide (1 < ((chunkerChunk ⟨3, 500, 0, 2⟩
              (strL ("# A\n\nab\n\n# B\n\nabcdefghijkl\n\n# A\n\ncd"))).filter
            (fun d => decide
              (d.metadata.parent_section_path = c.metadata.parent_section_path))).length)))
      = true := by decide

/-! ## Claim C9 -/

/-- C9 (amended): the heuristic `TokenCounter` operations are total.
`count` strips its input first: it returns `0` exactly for whitespace-only
text and `max(1, len(strip(text)) / 4)` otherwise (not `max(1, len(text)/4)`
as claimed).  For `n ≥ 1`, `tail` returns the last `4*n` characters (a
suffix of length `min(4*n, len)`); for `n = 0` Python's `text[-0:]` yields
the *whole* text, not the last 0 characters. -/
theorem c9_token_counter_amended (t : Str) (n : Nat) :
    (pyStrip t = [] → tcCount t = 0) ∧
    (pyStrip t ≠ [] → tcCount t = max 1 ((pyStrip t).length / 4)) ∧
    (1 ≤ n → tcTail t n = t.drop (t.length - 4 * n) ∧
      (tcTail t n).length = min (4 * n) t.length ∧ (tcTail t n).IsSuffix t) ∧
    tcTail t 0 = t := by
  refine ⟨?_, ?_, ?_, rfl⟩
  · intro h
    show (if pyStrip t = [] then 0 else max 1 ((pyStrip t).length / 4)) = 0
    rw [if_pos h]
  · intro h
    show (if pyStrip t = [] then 0 else max 1 ((pyStrip t).length / 4)) = _
    rw [if_neg h]
  · intro hn
    have h4 : ¬(4 * n = 0) := by omega
    have htail : tcTail t n = t.drop (t.length - 4 * n) := by
      show (if 4 * n = 0 then t else t.drop (t.length - 4 * n)) = _
      rw [if_neg h4]
    refine ⟨htail, ?_, ?_⟩
    · rw [htail, List.length_drop]
      omega
    · rw [htail]
      exact List.drop_suffix _ _

/-- Witness for the amended C9 at concrete inputs. -/
theorem c9_amended_witness :
    tcCount (strL ("abcde  ")) = max 1 ((pyStrip (strL ("abcde  "))).length / 4) ∧
    tcTail (strL ("abcdef")) 1 = (strL ("abcdef")).drop ((strL ("abcdef")).length - 4 * 1) := by
  have h1 := c9_token_counter_amended (strL ("abcde  ")) 1
  have h2 := c9_token_counter_amended (strL ("abcdef")) 1
  exact ⟨h1.2.1 (by decide), (h2.2.2.1 (by decide)).1⟩

/-- C9 counterexample: the claim's formula fails on text with surrounding
whitespace — `count(" ") = 0` although `" "` is non-empty (the claim demands
`max(1, 1/4) = 1`), and `count("abcde   ") = 1 ≠ 2 = max(1, 8/4)` — and
`tail(text, 0)` returns the whole text rather than the last `4*0 = 0`
characters. -/
theorem c9_claim_counterexample :
    (strL (" ") ≠ [] ∧ tcCount (strL (" ")) = 0 ∧ max 1 ((strL (" ")).length / 4) = 1) ∧
    (tcCount (strL ("abcde   ")) = 1 ∧ max 1 ((strL ("abcde   ")).length / 4) = 2) ∧
    (tcTail (strL ("ab")) 0 = strL ("ab") ∧ strL ("ab") ≠ []) := by decide

/-! ## Claim C5 -/

/-- C5: the specification requires configurations violating the contract
(`max_tokens < min_tokens`) to be rejected when the chunker is constructed.
The implementation's `__init__` performs no validation: it is a total
function that accepts every configuration (second conjunct), including
`min_tokens = 10 > max_tokens = 5` (first conjunct), and `chunk` then runs
to completion on such a configuration without any error (third conjunct). -/
theorem c5_init_accepts_invalid_config :
    (tokenAwareChunkerInit 10 5 0 2).max_tokens < (tokenAwareChunkerInit 10 5 0 2).min_tokens ∧
    (∀ mn mx ov pl, tokenAwareChunkerInit mn mx ov pl =
      { min_tokens := mn, max_tokens := mx, overlap_tokens := ov,
        parent_section_level := max 1 (min 6 pl) }) ∧
    (chunkerChunk (tokenAwareChunkerInit 10 5 0 2) (strL ("hello world"))).map
        (fun c => (c.text, c.token_count)) = [(strL ("hello world"), 2)] := by
  refine ⟨by decide, fun mn mx ov pl => rfl, by decide⟩

/-! ## Claim C2: parent-section locality of assembled chunks -/

theorem flushSt_active (st : AsmSt) : (flushSt st).active = st.active := by
  unfold flushSt
  cases flushOut st.idx st.active st.cur <;> rfl

theorem flushSt_cur (st : AsmSt) : (flushSt st).cur = [] := by
  unfold flushSt
  cases flushOut st.idx st.active st.cur <;> rfl

theorem flushOut_blocks {idx : Nat} {act : Option Str} {cur : List MdBlock}
    {cb : Chunk × List MdBlock} (h : flushOut idx act cur = some cb) : cb.2 = cur := by
  unfold flushOut at h
  by_cases hc : cur = []
  · rw [if_pos hc] at h; cases h
  · rw [if_neg hc] at h
    by_cases ht : 1 ≤ tcCount (pyStrip (joinWith (strL ("\n\n")) (cur.map (·.text))))
    · rw [if_pos ht] at h
      cases h; rfl
    · rw [if_neg ht] at h; cases h

theorem flushSt_chunksOk {st : AsmSt} (hchunks : ChunksOk st.chunks)
    (hcur : ∀ x ∈ st.cur, x.parent_section_path = st.active) :
    ChunksOk (flushSt st).chunks := by
  unfold flushSt
  cases hf : flushOut st.idx st.active st.cur with
  | none => exact hchunks
  | some cb0 =>
    intro cb hcb x hx
    rcases List.mem_append.mp hcb with hcb | hcb
    · exact hchunks cb hcb x hx
    · rw [List.mem_singleton.mp hcb] at hx ⊢
      rw [(flushOut_good hf).2]
      rw [flushOut_blocks hf] at hx
      exact hcur x hx

theorem asmStep_eq_mid_tail (cfg : ChunkerCfg) (st : AsmSt) (b : MdBlock) :
    asmStep cfg st b = asmTail cfg b (asmMid cfg st b) := rfl

theorem asmMid_c2 {cfg : ChunkerCfg} {st : AsmSt} {b : MdBlock}
    (hact : b.parent_section_path = st.active ∨
      isBoundaryHeading cfg.parent_section_level b = true ∨
      (st.active = none ∧ st.cur = [] ∧ st.chunks = []))
    (hcur : ∀ x ∈ st.cur, x.parent_section_path = st.active)
    (hchunks : ChunksOk st.chunks) :
    ChunksOk (asmMid cfg st b).chunks ∧
      (∀ x ∈ (asmMid cfg st b).cur,
        x.parent_section_path = (asmMid cfg st b).active) ∧
      (asmMid cfg st b).active = b.parent_section_path := by
  unfold asmMid
  dsimp only
  by_cases hA : isBoundaryHeading cfg.parent_section_level b = true
  · rw [if_pos hA]
    dsimp only
    have hemptycur : ∀ x ∈ (flushSt st).cur, x.parent_section_path = b.parent_section_path := by
      intro x hx
      rw [flushSt_cur] at hx
      cases hx
    by_cases hN : b.parent_section_path = none
    · rw [if_pos hN]
      exact ⟨flushSt_chunksOk hchunks hcur, hemptycur, rfl⟩
    · rw [if_neg hN]
      exact ⟨flushSt_chunksOk hchunks hcur, hemptycur, rfl⟩
  · rw [if_neg hA]
    by_cases hN : st.active = none
    · rw [if_pos hN]
      refine ⟨hchunks, ?_, rfl⟩
      intro x hx
      rcases hact with h | h | h
      · rw [hcur x hx, ← h]
      · exact absurd h hA
      · rw [h.2.1] at hx
        cases hx
    · rw [if_neg hN]
      have hbp : st.active = b.parent_section_path := by
        rcases hact with h | h | h
        · exact h.symm
        · exact absurd h hA
        · exact absurd h.1 hN
      exact ⟨hchunks, fun x hx => hcur x hx, hbp⟩

theorem asmTail_c2 {cfg : ChunkerCfg} {b : MdBlock} {s2 : AsmSt}
    (hcur : ∀ x ∈ s2.cur, x.parent_section_path = s2.active)
    (hchunks : ChunksOk s2.chunks)
    (hact : s2.active = b.parent_section_path) :
    ChunksOk (asmTail cfg b s2).chunks ∧
      (∀ x ∈ (asmTail cfg b s2).cur,
        x.parent_section_path = (asmTail cfg b s2).active) ∧
      (asmTail cfg b s2).active = b.parent_section_path := by
  unfold asmTail
  dsimp only
  by_cases hF : s2.cur_tokens + b.token_count ≤ cfg.max_tokens
  · rw [if_pos hF]
    refine ⟨hchunks, ?_, hact⟩
    intro x hx
    rcases List.mem_append.mp hx with hx | hx
    · exact hcur x hx
    · rw [List.mem_singleton.mp hx, hact]
  · rw [if_neg hF]
    have hch3 : ChunksOk (flushSt s2).chunks := flushSt_chunksOk hchunks hcur
    have ha3 : (flushSt s2).active = b.parent_section_path := by
      rw [flushSt_active]; exact hact
    by_cases hO : (decide ((flushSt s2).chunks ≠ []) && decide (0 < cfg.overlap_tokens) &&
        decide (((flushSt s2).chunks.getLast?.map
          (fun cb => cb.1.metadata.parent_section_path)) = some (flushSt s2).active)) = true
    · rw [if_pos hO]
      dsimp only
      by_cases hT : pyStrip (tcTail (((flushSt s2).chunks.getLast?.map
          (fun cb => cb.1.text)).getD []) cfg.overlap_tokens) ≠ []
      · rw [if_pos hT]
        refine ⟨hch3, ?_, ha3⟩
        intro x hx
        simp only [List.mem_cons, List.not_mem_nil, or_false] at hx
        rcases hx with hx | hx
        · rw [hx]
        · rw [hx, ha3]
      · rw [if_neg hT]
        refine ⟨hch3, ?_, ha3⟩
        intro x hx
        rw [List.mem_singleton.mp hx, ha3]
    · rw [if_neg hO]
      refine ⟨hch3, ?_, ha3⟩
      intro x hx
      rw [List.mem_singleton.mp hx, ha3]

theorem assemble_c2_main (cfg : ChunkerCfg) :
    ∀ (bs : List MdBlock) (st : AsmSt) (prevB : Option MdBlock),
      (match prevB with
       | none => st.cur = [] ∧ st.chunks = [] ∧ st.active = none
       | some pb => st.active = pb.parent_section_path) →
      (match prevB with
       | none => bs.Chain' (ParentChangeRel cfg.parent_section_level)
       | some pb => (pb :: bs).Chain' (ParentChangeRel cfg.parent_section_level)) →
      ChunksOk st.chunks → (∀ x ∈ st.cur, x.parent_section_path = st.active) →
      ChunksOk (flushSt (bs.foldl (asmStep cfg) st)).chunks := by
  intro bs
  induction bs with
  | nil =>
    intro st prevB _ _ hchunks hcur
    exact flushSt_chunksOk hchunks hcur
  | cons b rest ih =>
    intro st prevB hprev hchain hchunks hcur
    have hact : b.parent_section_path = st.active ∨
        isBoundaryHeading cfg.parent_section_level b = true ∨
        (st.active = none ∧ st.cur = [] ∧ st.chunks = []) := by
      cases prevB with
      | none =>
        exact Or.inr (Or.inr ⟨hprev.2.2, hprev.1, hprev.2.1⟩)
      | some pb =>
        by_cases heq : b.parent_section_path = st.active
        · exact Or.inl heq
        · refine Or.inr (Or.inl ?_)
          have hrel : ParentChangeRel cfg.parent_section_level pb b :=
            (List.chain'_cons.mp hchain).1
          apply hrel
          intro hpeq
          exact heq (by rw [← hpeq, ← hprev])
    have hmid := asmMid_c2 hact hcur hchunks
    have htail := @asmTail_c2 cfg b _ hmid.2.1 hmid.1 hmid.2.2
    rw [List.foldl_cons]
    refine ih (asmStep cfg st b) (some b) ?_ ?_ ?_ ?_
    · show (asmStep cfg st b).active = b.parent_section_path
      rw [asmStep_eq_mid_tail]
      exact htail.2.2
    · show (b :: rest).Chain' (ParentChangeRel cfg.parent_section_level)
      cases prevB with
      | none => exact hchain
      | some pb => exact (List.chain'_cons.mp hchain).2
    · rw [asmStep_eq_mid_tail]
      exact htail.1
    · rw [asmStep_eq_mid_tail]
      exact htail.2.1

/-- C2 (amended): provided the block stream changes `parent_section_path`
only at headings at or above `parent_section_level` (which parser output
does except in the deep-heading fallback of `_parent_section_path`), every
assembled chunk's constituent blocks all carry the chunk's recorded parent
section path — in particular the injected overlap fragment, which is tagged
with the new chunk's parent path.  The claim as stated over all inputs fails
on documents that start below the parent level (see the counterexample). -/
theorem c2_parent_locality_amended (cfg : ChunkerCfg) (blocks : List MdBlock)
    (h : blocks.Chain' (ParentChangeRel cfg.parent_section_level)) :
    ChunksOk (assembleWithBlocks cfg blocks) := by
  unfold assembleWithBlocks
  exact assemble_c2_main cfg blocks {} none ⟨rfl, rfl, rfl⟩ h
    (by intro cb hcb x hx; cases hcb) (by intro x hx; cases hx)

/-- Witness for the amended C2 on a concrete block stream (two parent
sections separated by a boundary heading). -/
theorem c2_amended_witness :
    ChunksOk (assembleWithBlocks ⟨0, 10, 0, 2⟩
      [{ text := strL ("# A"), token_count := 1, section_path := some (strL ("A")),
         parent_section_path := some (strL ("A")), block_type := btHeading,
         heading_level := some 1 },
       { text := strL ("aaaa"), token_count := 1, section_path := some (strL ("A")),
         parent_section_path := some (strL ("A")), block_type := btText },
       { text := strL ("# B"), token_count := 1, section_path := some (strL ("B")),
         parent_section_path := some (strL ("B")), block_type := btHeading,
         heading_level := some 1 },
       { text := strL ("bbbb"), token_count := 1, section_path := some (strL ("B")),
         parent_section_path := some (strL ("B")), block_type := btText }]) :=
  c2_parent_locality_amended ⟨0, 10, 0, 2⟩ _
    (by
      refine List.chain'_cons.mpr ⟨?_, List.chain'_cons.mpr ⟨?_,
        List.chain'_cons.mpr ⟨?_, List.chain'_singleton _⟩⟩⟩ <;> decide)

/-- C2 counterexample: on `"### C\n\nt\n\n### D\n\nu"` (all headings below
`parent_section_level = 2`, so the `_parent_section_path` fallback applies
and no heading is a boundary), assembly produces a single chunk whose four
blocks carry parent paths `C, C, D, D` — two different values in a 2/2
split, which no single-exception reading of the claim can absorb. -/
theorem c2_claim_counterexample :
    (assembleWithBlocks ⟨0, 500, 0, 2⟩
        (expandBlocks 500 (iterBlocks 2 (strL ("### C\n\nt\n\n### D\n\nu"))))).map
      (fun cb => cb.2.map (fun x => x.parent_section_path)) =
      [[some (strL ("C")), some (strL ("C")), some (strL ("D")), some (strL ("D"))]] ∧
    allSameExceptOneB
      [some (strL ("C")), some (strL ("C")), some (strL ("D")), some (strL ("D"))] = false := by
  exact ⟨by decide, by decide⟩

/-! ## Claim C4: where the heading-merge lives and what it does -/

/-- C4 (amended): the heading-merge is a pre-pass of the *filter*, applied
to assembled chunks at the top of `filter_chunks` (not a block-level pass
before chunk assembly): whenever a heading-only chunk is immediately
followed by a chunk with the same `parent_section_path`, the two are merged
into one chunk whose text is the concatenation of their stripped texts,
carrying the following chunk's metadata plus a `merged_heading` mark (and
token count `max(len(text)//4, sum of the two counts)`); any other chunk is
passed through; and the filter's statistics count from the merged list. -/
theorem c4_heading_merge_amended :
    (∀ (c n : Chunk) (rest : List Chunk),
        looksLikeHeadingOnly c.text = true →
        c.metadata.parent_section_path = n.metadata.parent_section_path →
        mergeHeadingAux (c :: n :: rest) =
          { index := c.index
            text := pyStrip c.text ++ strL ("\n\n") ++ pyStrip n.text
            token_count := max ((pyStrip c.text ++ strL ("\n\n") ++ pyStrip n.text).length / 4)
              (c.token_count + n.token_count)
            metadata := { n.metadata with
              merged_heading := some (n.metadata.merged_heading.getD true) } } ::
            mergeHeadingAux rest) ∧
    (∀ (c n : Chunk) (rest : List Chunk),
        ¬(looksLikeHeadingOnly c.text = true ∧
          c.metadata.parent_section_path = n.metadata.parent_section_path) →
        mergeHeadingAux (c :: n :: rest) = c :: mergeHeadingAux (n :: rest)) ∧
    (∀ (cfg : FilterCfg) (chunks : List Chunk), cfg.enabled = true →
        (filter_chunks cfg chunks).2.total_in = (mergeHeadingWithNext chunks).length) := by
  refine ⟨?_, ?_, ?_⟩
  · intro c n rest h1 h2
    show (if looksLikeHeadingOnly c.text = true ∧
        c.metadata.parent_section_path = n.metadata.parent_section_path then _ else _) = _
    rw [if_pos ⟨h1, h2⟩]
  · intro c n rest h
    show (if looksLikeHeadingOnly c.text = true ∧
        c.metadata.parent_section_path = n.metadata.parent_section_path then _ else _) = _
    rw [if_neg h]
  · intro cfg chunks hen
    unfold filter_chunks
    rw [if_neg (by rw [hen]; exact fun h => h rfl)]

/-- Witness for the amended C4 at concrete inputs: a heading-only chunk
followed by a same-parent chunk is merged by the filter's pre-pass, and the
filter's `total_in` counts the merged list. -/
theorem c4_amended_witness :
    mergeHeadingAux
        [{ index := 0, text := strL ("# A"), token_count := 1,
           metadata := { parent_section_path := some (strL ("A")) } },
         { index := 1, text := strL ("bc"), token_count := 1,
           metadata := { parent_section_path := some (strL ("A")) } }] =
      [{ index := 0
         text := pyStrip (strL ("# A")) ++ strL ("\n\n") ++ pyStrip (strL ("bc"))
         token_count := max
           ((pyStrip (strL ("# A")) ++ strL ("\n\n") ++ pyStrip (strL ("bc"))).length / 4)
           (1 + 1)
         metadata := { parent_section_path := some (strL ("A")),
                       merged_heading := some true } }] ∧
    (filter_chunks { min_tokens := 0 }
        [{ index := 0, text := strL ("# A"), token_count := 1,
           metadata := { parent_section_path := some (strL ("A")) } },
         { index := 1, text := strL ("bc"), token_count := 1,
           metadata := { parent_section_path := some (strL ("A")) } }]).2.total_in =
      (mergeHeadingWithNext
        [{ index := 0, text := strL ("# A"), token_count := 1,
           metadata := { parent_section_path := some (strL ("A")) } },
         { index := 1, text := strL ("bc"), token_count := 1,
           metadata := { parent_section_path := some (strL ("A")) } }]).length := by
  constructor
  · have h := c4_heading_merge_amended.1
      { index := 0, text := strL ("# A"), token_count := 1,
        metadata := { parent_section_path := some (strL ("A")) } }
      { index := 1, text := strL ("bc"), token_count := 1,
        metadata := { parent_section_path := some (strL ("A")) } }
      [] (by decide) (by decide)
    rw [h]
    decide
  · exact c4_heading_merge_amended.2.2 { min_tokens := 0 } _ (by decide)

/-- C4 counterexample: in the implementation no heading-merge happens before
or during assembly.  On `"# A\nbc"` with `max_tokens = 1` the chunker emits
the heading-only chunk `"# A"` and the same-parent chunk `"bc"` as two
separate chunks with no `merged_heading` mark anywhere, whereas the
spec-modelled pipeline (heading-merge as a block-level pre-pass before
assembly, everything else identical) emits the single merged chunk
`"# A\n\nbc"` — refuting the claimed placement of the pass. -/
theorem c4_claim_counterexample :
    (chunkerChunk ⟨0, 1, 0, 2⟩ (strL ("# A\nbc"))).map (fun c => c.text) =
      [strL ("# A"), strL ("bc")] ∧
    (chunkerChunk ⟨0, 1, 0, 2⟩ (strL ("# A\nbc"))).map
        (fun c => c.metadata.parent_section_path) =
      [some (strL ("A")), some (strL ("A"))] ∧
    ((chunkerChunk ⟨0, 1, 0, 2⟩ (strL ("# A\nbc"))).all
        (fun c => decide (c.metadata.merged_heading = none))) = true ∧
    (specClaimedChunkerChunk ⟨0, 1, 0, 2⟩ (strL ("# A\nbc"))).map (fun c => c.text) =
      [strL ("# A\n\nbc")] ∧
    chunkerChunk ⟨0, 1, 0, 2⟩ (strL ("# A\nbc")) ≠
      specClaimedChunkerChunk ⟨0, 1, 0, 2⟩ (strL ("# A\nbc")) := by
  refine ⟨by decide, by decide, by decide, by decide, by decide⟩

/-! ## Filter-loop lemmas -/

theorem find?_map_bump (m : List (Str × Nat)) (k : Str) (n : Nat)
    (h : m.any (fun e => e.1 = k) = true) :
    dmapGet (m.map (fun e => if e.1 = k then (e.1, e.2 + n) else e)) k = dmapGet m k + n := by
  induction m with
  | nil => simp at h
  | cons e rest ih =>
    by_cases he : e.1 = k
    · unfold dmapGet
      simp [List.find?_cons, he]
    · simp only [List.any_cons] at h
      have hrest : rest.any (fun e => e.1 = k) = true := by
        cases hd : (decide (e.1 = k)) with
        | true => exact absurd (of_decide_eq_true hd) he
        | false => rw [hd] at h; simpa using h
      unfold dmapGet at ih ⊢
      simp only [List.map_cons, if_neg he, List.find?_cons]
      have hne : (decide (e.1 = k)) = false := by simp [he]
      rw [hne]
      simp only [Bool.false_eq_true, if_false]
      exact ih hrest

theorem find?_append_bump (m : List (Str × Nat)) (k : Str) (n : Nat)
    (h : m.any (fun e => e.1 = k) = false) :
    dmapGet (m ++ [(k, n)]) k = dmapGet m k + n := by
  induction m with
  | nil =>
    unfold dmapGet
    simp [List.find?_cons]
  | cons e rest ih =>
    simp only [List.any_cons, Bool.or_eq_false_iff] at h
    have he : ¬(e.1 = k) := by
      intro hh
      rw [decide_eq_true hh] at h
      exact Bool.true_eq_false.mp h.1
    unfold dmapGet at ih ⊢
    simp only [List.cons_append, List.find?_cons]
    have hne : (decide (e.1 = k)) = false := by simp [he]
    rw [hne]
    simp only [Bool.false_eq_true, if_false]
    exact ih (by simpa using h.2)

theorem bumpTag_get_eq (m : List (Str × Nat)) (k : Str) (n : Nat) :
    dmapGet (bumpTag m k n) k = dmapGet m k + n := by
  unfold bumpTag
  by_cases h : m.any (fun e => e.1 = k) = true
  · rw [if_pos h]
    exact find?_map_bump m k n h
  · rw [if_neg h]
    exact find?_append_bump m k n (Bool.not_eq_true _ ▸ (by simpa using h))

theorem bumpTag_get_ne (m : List (Str × Nat)) {k k' : Str} (n : Nat) (h : k ≠ k') :
    dmapGet (bumpTag m k' n) k = dmapGet m k := by
  unfold bumpTag
  by_cases hany : m.any (fun e => e.1 = k') = true
  · rw [if_pos hany]
    clear hany
    induction m with
    | nil => rfl
    | cons e rest ih =>
      unfold dmapGet at ih ⊢
      by_cases he : e.1 = k'
      · simp only [List.map_cons, if_pos he, List.find?_cons]
        have hek : (decide (e.1 = k)) = false := by
          simp only [decide_eq_false_iff_not]
          intro hh; exact h (by rw [← hh, he])
        rw [hek]
        simp only [Bool.false_eq_true, if_false]
        exact ih
      · simp only [List.map_cons, if_neg he, List.find?_cons]
        by_cases hek : e.1 = k
        · simp [decide_eq_true hek]
        · rw [decide_eq_false hek]
          simp only [Bool.false_eq_true, if_false]
          exact ih
  · rw [if_neg hany]
    clear hany
    induction m with
    | nil =>
      unfold dmapGet
      have hkk : ¬(k' = k) := fun hh => h hh.symm
      have hd : (decide (k' = k)) = false := decide_eq_false hkk
      simp [List.find?_cons, hd]
    | cons e rest ih =>
      unfold dmapGet at ih ⊢
      simp only [List.cons_append, List.find?_cons]
      by_cases hek : e.1 = k
      · simp [decide_eq_true hek]
      · rw [decide_eq_false hek]
        simp only [Bool.false_eq_true, if_false]
        exact ih

theorem any_if_singleton (b : Bool) (t : Str) (p : Str → Bool) :
    ((if b = true then [t] else []).any p) = (b && p t) := by
  cases b <;> simp

/-- The loop's drop decision: a chunk is dropped iff it carries one of the
non-duplicate drop reasons or its trimmed text is already in the seen-set. -/
theorem drop_decision (cfg : FilterCfg) (seen : List Str) (c : Chunk) :
    ((tagsForChunk cfg seen c).any (fun t => dropTags.contains t)) =
      (dropsOwn cfg c || seen.contains (shaKey (pyStrip c.text))) := by
  have hf : dropTags.contains tagFrontMatter = true := by decide
  have hb : dropTags.contains tagBoilerplate = true := by decide
  have hi : dropTags.contains tagImageOnly = true := by decide
  have hl : dropTags.contains tagLowSignal = false := by decide
  have hd : dropTags.contains tagDuplicate = true := by decide
  have gf : (decide (tagFrontMatter = tagFrontMatter ∨ tagFrontMatter = tagBoilerplate ∨
      tagFrontMatter = tagImageOnly)) = true := by decide
  have gb : (decide (tagBoilerplate = tagFrontMatter ∨ tagBoilerplate = tagBoilerplate ∨
      tagBoilerplate = tagImageOnly)) = true := by decide
  have gi : (decide (tagImageOnly = tagFrontMatter ∨ tagImageOnly = tagBoilerplate ∨
      tagImageOnly = tagImageOnly)) = true := by decide
  have gl : (decide (tagLowSignal = tagFrontMatter ∨ tagLowSignal = tagBoilerplate ∨
      tagLowSignal = tagImageOnly)) = false := by decide
  have gd : (decide (tagDuplicate = tagFrontMatter ∨ tagDuplicate = tagBoilerplate ∨
      tagDuplicate = tagImageOnly)) = false := by decide
  simp only [tagsForChunk, dropsOwn]
  by_cases hlow : c.token_count < cfg.min_tokens <;>
    [simp only [if_pos hlow, List.any_append, any_if_singleton, hf, hb, hi, hl, hd,
      gf, gb, gi, gl, gd, List.contains_nil, List.any_cons, List.any_nil];
     simp only [if_neg hlow, List.any_append, any_if_singleton, hf, hb, hi, hl, hd,
      gf, gb, gi, gl, gd, List.contains_nil, List.any_cons, List.any_nil]] <;>
    (cases cfg.drop_front_matter && matchAnyKeyword (pyLower (pyStrip
        ((pyOrOpt c.metadata.parent_section_path c.metadata.primary_section_path).getD [])))
        FRONT_MATTER_KEYWORDS <;>
      cases cfg.drop_boilerplate && hasBoilerplate c.text <;>
      cases cfg.drop_image_only && isImageOnly c.text <;>
      cases seen.contains (shaKey (pyStrip c.text)) <;> rfl)

theorem tagsFor_no_dup (cfg : FilterCfg) {seen : List Str} {c : Chunk}
    (h : seen.contains (shaKey (pyStrip c.text)) = false) :
    tagsForChunk cfg seen c = tagsForChunk cfg [] c := by
  unfold tagsForChunk
  dsimp only
  rw [h]
  rfl

theorem tagDuplicate_not_mem_own (cfg : FilterCfg) (c : Chunk) :
    tagDuplicate ∉ tagsForChunk cfg [] c := by
  intro hmem
  unfold tagsForChunk at hmem
  dsimp only at hmem
  simp only [List.mem_append] at hmem
  rcases hmem with (((h | h) | h) | h) | h <;>
    · split_ifs at h <;>
        first
          | (exact absurd (List.mem_singleton.mp h) (by decide))
          | simp_all

theorem tagsFor_dup_split (cfg : FilterCfg) {seen : List Str} {c : Chunk}
    (h : seen.contains (shaKey (pyStrip c.text)) = true) :
    tagsForChunk cfg seen c = tagsForChunk cfg [] c ++ [tagDuplicate] := by
  unfold tagsForChunk
  dsimp only
  rw [h]
  simp [List.append_assoc]

theorem foldl_bump_not_mem {tags : List Str} {dmap : List (Str × Nat)} {k : Str}
    (h : k ∉ tags) :
    dmapGet (tags.foldl (fun m t => bumpTag m t 1) dmap) k = dmapGet dmap k := by
  induction tags generalizing dmap with
  | nil => rfl
  | cons t rest ih =>
    rw [List.foldl_cons]
    have hne : k ≠ t := fun hh => h (hh ▸ List.mem_cons_self t rest)
    rw [ih (fun hh => h (List.mem_cons_of_mem t hh)), bumpTag_get_ne _ _ hne]

theorem foldl_bump_last {pre : List Str} {dmap : List (Str × Nat)} {k : Str}
    (h : k ∉ pre) :
    dmapGet ((pre ++ [k]).foldl (fun m t => bumpTag m t 1) dmap) k = dmapGet dmap k + 1 := by
  rw [List.foldl_append, List.foldl_cons, List.foldl_nil, bumpTag_get_eq, foldl_bump_not_mem h]

theorem filterLoop_cons (cfg : FilterCfg) (c : Chunk) (rest : List Chunk)
    (seen : List Str) (dmap : List (Str × Nat)) :
    filterLoop cfg (c :: rest) seen dmap =
      if (tagsForChunk cfg seen c).any (fun t => dropTags.contains t) then
        filterLoop cfg rest seen
          ((tagsForChunk cfg seen c).foldl (fun m t => bumpTag m t 1) dmap)
      else
        { filterLoop cfg rest (seen ++ [shaKey (pyStrip c.text)]) dmap with
          kept := { c with metadata :=
              { c.metadata with
                tags := sortedUniqueStrs (c.metadata.tags ++ tagsForChunk cfg seen c)
                quality_score :=
                  some (computeQualityScore c.token_count (tagsForChunk cfg seen c)) } } ::
            (filterLoop cfg rest (seen ++ [shaKey (pyStrip c.text)]) dmap).kept } := rfl

theorem filterLoop_seen (cfg : FilterCfg) (l : List Chunk) :
    ∀ (seen : List Str) (dmap : List (Str × Nat)),
      (filterLoop cfg l seen dmap).seen =
        seen ++ (filterLoop cfg l seen dmap).kept.map (fun k => shaKey (pyStrip k.text)) := by
  induction l with
  | nil => intro seen dmap; simp [filterLoop]
  | cons c rest ih =>
    intro seen dmap
    rw [filterLoop_cons]
    split_ifs with hdrop
    · rw [ih]
    · dsimp only
      rw [ih]
      simp [List.append_assoc]

theorem filterLoop_kept_src (cfg : FilterCfg) (l : List Chunk) :
    ∀ (seen : List Str) (dmap : List (Str × Nat)),
      ∀ k ∈ (filterLoop cfg l seen dmap).kept, ∃ c ∈ l,
        k.text = c.text ∧ k.token_count = c.token_count ∧ k.index = c.index ∧
          k.metadata.parent_section_path = c.metadata.parent_section_path := by
  induction l with
  | nil => intro seen dmap k hk; cases hk
  | cons c rest ih =>
    intro seen dmap k hk
    rw [filterLoop_cons] at hk
    split_ifs at hk with hdrop
    · rcases ih _ _ k hk with ⟨c', hc', hprops⟩
      exact ⟨c', List.mem_cons_of_mem c hc', hprops⟩
    · rcases List.mem_cons.mp hk with hk | hk
      · refine ⟨c, List.mem_cons_self c rest, ?_⟩
        rw [hk]
        exact ⟨rfl, rfl, rfl, rfl⟩
      · rcases ih _ _ k hk with ⟨c', hc', hprops⟩
        exact ⟨c', List.mem_cons_of_mem c hc', hprops⟩

theorem filterLoop_kept_len (cfg : FilterCfg) (l : List Chunk) :
    ∀ (seen : List Str) (dmap : List (Str × Nat)),
      (filterLoop cfg l seen dmap).kept.length ≤ l.length := by
  induction l with
  | nil => intro seen dmap; simp [filterLoop]
  | cons c rest ih =>
    intro seen dmap
    rw [filterLoop_cons]
    split_ifs with hdrop
    · exact Nat.le_succ_of_le (ih _ _)
    · dsimp only
      rw [List.length_cons, List.length_cons]
      exact Nat.succ_le_succ (ih _ _)

theorem strContains_iff {l : List Str} {a : Str} : l.contains a = true ↔ a ∈ l := by
  simp

theorem strContains_false_iff {l : List Str} {a : Str} : l.contains a = false ↔ a ∉ l := by
  constructor
  · intro h hmem
    rw [strContains_iff.mpr hmem] at h
    cases h
  · intro h
    cases hx : l.contains a with
    | false => rfl
    | true => exact absurd (strContains_iff.mp hx) h

theorem filterLoop_kept_fresh (cfg : FilterCfg) (l : List Chunk) :
    ∀ (seen : List Str) (dmap : List (Str × Nat)),
      (∀ k ∈ (filterLoop cfg l seen dmap).kept,
        shaKey (pyStrip k.text) ∉ seen) ∧
      ((filterLoop cfg l seen dmap).kept.map (fun k => shaKey (pyStrip k.text))).Nodup := by
  induction l with
  | nil => intro seen dmap; exact ⟨fun k hk => absurd hk (List.not_mem_nil k), List.nodup_nil⟩
  | cons c rest ih =>
    intro seen dmap
    rw [filterLoop_cons]
    split_ifs with hdrop
    · exact ih _ _
    · dsimp only
      have hnotseen : shaKey (pyStrip c.text) ∉ seen := by
        rw [← strContains_false_iff]
        cases hx : seen.contains (shaKey (pyStrip c.text)) with
        | false => rfl
        | true =>
          exfalso
          apply hdrop
          rw [drop_decision, hx]
          simp
      have hihfresh := ih (seen ++ [shaKey (pyStrip c.text)]) dmap
      constructor
      · intro k hk
        rcases List.mem_cons.mp hk with hk | hk
        · rw [hk]; exact hnotseen
        · intro hmem
          exact hihfresh.1 k hk (List.mem_append_left _ hmem)
      · rw [List.map_cons]
        refine List.nodup_cons.mpr ⟨?_, hihfresh.2⟩
        intro hmem
        rcases List.mem_map.mp hmem with ⟨k, hk, hkey⟩
        apply hihfresh.1 k hk
        rw [hkey]
        exact List.mem_append_right _ (List.mem_singleton_self _)

/-! ## Grouping lemmas for the capping passes -/

theorem mem_dedupKeepFirst_aux (xs : List Str) :
    ∀ (acc : List Str) (x : Str),
      x ∈ xs.foldl (fun acc y => if acc.contains y then acc else acc ++ [y]) acc ↔
        x ∈ acc ∨ x ∈ xs := by
  induction xs with
  | nil => intro acc x; simp
  | cons y ys ih =>
    intro acc x
    rw [List.foldl_cons]
    by_cases hy : acc.contains y
    · rw [if_pos hy]
      rw [ih]
      constructor
      · rintro (h | h)
        · exact Or.inl h
        · exact Or.inr (List.mem_cons_of_mem y h)
      · rintro (h | h)
        · exact Or.inl h
        · rcases List.mem_cons.mp h with h | h
          · exact Or.inl (h ▸ strContains_iff.mp hy)
          · exact Or.inr h
    · rw [if_neg hy]
      rw [ih]
      constructor
      · rintro (h | h)
        · rcases List.mem_append.mp h with h | h
          · exact Or.inl h
          · exact Or.inr (List.mem_cons.mpr (Or.inl (List.mem_singleton.mp h)))
        · exact Or.inr (List.mem_cons_of_mem y h)
      · rintro (h | h)
        · exact Or.inl (List.mem_append_left _ h)
        · rcases List.mem_cons.mp h with h | h
          · exact Or.inl (List.mem_append_right _ (h ▸ List.mem_singleton_self y))
          · exact Or.inr h

theorem mem_dedupKeepFirst {xs : List Str} {x : Str} :
    x ∈ dedupKeepFirst xs ↔ x ∈ xs := by
  unfold dedupKeepFirst
  rw [mem_dedupKeepFirst_aux]
  simp

theorem dedupKeepFirst_nodup (xs : List Str) : (dedupKeepFirst xs).Nodup := by
  unfold dedupKeepFirst
  have main : ∀ (acc : List Str), acc.Nodup →
      (xs.foldl (fun acc y => if acc.contains y then acc else acc ++ [y]) acc).Nodup := by
    induction xs with
    | nil => intro acc h; exact h
    | cons y ys ih =>
      intro acc h
      rw [List.foldl_cons]
      by_cases hy : acc.contains y
      · rw [if_pos hy]; exact ih acc h
      · rw [if_neg hy]
        refine ih _ ?_
        rw [List.nodup_append]
        exact ⟨h, List.nodup_singleton y,
          fun a ha hb => (strContains_false_iff.mp (Bool.not_eq_true _ ▸ (by simpa using hy)))
            ((List.mem_singleton.mp hb) ▸ ha)⟩
  exact main [] List.nodup_nil

theorem dedupKeepFirst_append_singleton (xs : List Str) (x : Str) :
    dedupKeepFirst (xs ++ [x]) =
      if x ∈ dedupKeepFirst xs then dedupKeepFirst xs else dedupKeepFirst xs ++ [x] := by
  unfold dedupKeepFirst
  rw [List.foldl_append, List.foldl_cons, List.foldl_nil]
  by_cases h : (xs.foldl (fun acc y => if acc.contains y then acc else acc ++ [y]) []).contains x
  · rw [if_pos h, if_pos (strContains_iff.mp h)]
  · rw [if_neg h, if_neg (fun hm => (strContains_false_iff.mp
      (Bool.not_eq_true _ ▸ (by simpa using h))) hm)]

theorem groupByParent_spec (l : List Chunk) :
    groupByParent l = (dedupKeepFirst (l.map capKey)).map
      (fun k => (k, l.filter (fun c => decide (capKey c = k)))) := by
  induction l using List.reverseRecOn with
  | nil => rfl
  | append_singleton t c ih =>
    show groupByParent (t ++ [c]) = _
    unfold groupByParent at ih ⊢
    rw [List.foldl_append, List.foldl_cons, List.foldl_nil, ih, List.map_append,
      List.map_singleton, dedupKeepFirst_append_singleton]
    unfold groupAdd
    by_cases hmem : capKey c ∈ dedupKeepFirst (t.map capKey)
    · rw [if_pos hmem]
      have hany : (((dedupKeepFirst (t.map capKey)).map
          (fun k => (k, t.filter (fun c' => decide (capKey c' = k))))).any
            (fun e => e.1 = capKey c)) = true := by
        rw [List.any_eq_true]
        exact ⟨(capKey c, t.filter (fun c' => decide (capKey c' = capKey c))),
          List.mem_map_of_mem _ hmem, by simp⟩
      rw [if_pos hany, List.map_map]
      apply List.map_congr_left
      intro k hk
      by_cases hkc : k = capKey c
      · simp only [Function.comp_apply, hkc, if_pos rfl, List.filter_append]
        have : [c].filter (fun c' => decide (capKey c' = capKey c)) = [c] := by simp
        rw [this]
        simp
      · have hd : (decide (capKey c = k)) = false := decide_eq_false (fun hh => hkc hh.symm)
        simp only [Function.comp_apply, if_neg (fun hh : k = capKey c => hkc hh),
          List.filter_append]
        have : [c].filter (fun c' => decide (capKey c' = k)) = [] := by
          simp [List.filter, hd]
        rw [this, List.append_nil]
    · rw [if_neg hmem]
      have hany : (((dedupKeepFirst (t.map capKey)).map
          (fun k => (k, t.filter (fun c' => decide (capKey c' = k))))).any
            (fun e => e.1 = capKey c)) = false := by
        rw [Bool.eq_false_iff]
        intro hh
        rw [List.any_eq_true] at hh
        rcases hh with ⟨e, he, hek⟩
        rcases List.mem_map.mp he with ⟨k, hkmem, hke⟩
        apply hmem
        have : e.1 = capKey c := of_decide_eq_true hek
        rw [← hke] at this
        simpa [← this] using hkmem
      rw [if_neg (show ¬(((dedupKeepFirst (t.map capKey)).map
          (fun k => (k, t.filter (fun c' => decide (capKey c' = k))))).any
            (fun e => e.1 = capKey c)) = true by simp [hany]),
        List.map_append, List.map_singleton]
      congr 1
      · apply List.map_congr_left
        intro k hk
        have hkc : capKey c ≠ k := fun hh => hmem (hh ▸ hk)
        have hd : (decide (capKey c = k)) = false := decide_eq_false hkc
        rw [List.filter_append]
        have : [c].filter (fun c' => decide (capKey c' = k)) = [] := by
          simp [List.filter, hd]
        rw [this, List.append_nil]
      · have hfe : t.filter (fun c' => decide (capKey c' = capKey c)) = [] := by
          rw [List.filter_eq_nil_iff]
          intro a ha
          intro hdec
          apply hmem
          rw [mem_dedupKeepFirst]
          exact (of_decide_eq_true hdec) ▸ List.mem_map_of_mem capKey ha
        rw [List.filter_append, hfe]
        have : [c].filter (fun c' => decide (capKey c' = capKey c)) = [c] := by simp
        rw [this, List.nil_append]

theorem capInner_kept (keepTexts : List Str) (g : List Chunk) :
    ∀ (acc : List Chunk × List (Str × Nat)),
      (g.foldl (fun acc2 c =>
        if keepTexts.contains (shaKey (pyStrip c.text)) then (acc2.1 ++ [c], acc2.2)
        else (acc2.1, bumpTag acc2.2 tagCapParent 1)) acc).1 =
      acc.1 ++ g.filter (fun c => keepTexts.contains (shaKey (pyStrip c.text))) := by
  induction g with
  | nil => intro acc; simp
  | cons c rest ih =>
    intro acc
    rw [List.foldl_cons]
    by_cases hc : keepTexts.contains (shaKey (pyStrip c.text))
    · rw [if_pos hc, ih]
      rw [List.filter_cons_of_pos (by simpa using hc)]
      simp
    · rw [if_neg hc, ih]
      rw [List.filter_cons_of_neg (by simpa using hc)]

theorem capInner_dmap (keepTexts : List Str) (g : List Chunk) :
    ∀ (acc : List Chunk × List (Str × Nat)),
      dmapGet (g.foldl (fun acc2 c =>
        if keepTexts.contains (shaKey (pyStrip c.text)) then (acc2.1 ++ [c], acc2.2)
        else (acc2.1, bumpTag acc2.2 tagCapParent 1)) acc).2 tagCapParent =
      dmapGet acc.2 tagCapParent +
        (g.filter (fun c => !keepTexts.contains (shaKey (pyStrip c.text)))).length := by
  induction g with
  | nil => intro acc; simp
  | cons c rest ih =>
    intro acc
    rw [List.foldl_cons]
    by_cases hc : keepTexts.contains (shaKey (pyStrip c.text))
    · rw [if_pos hc, ih]
      rw [List.filter_cons_of_neg (by simpa using hc)]
    · rw [if_neg hc, ih]
      rw [List.filter_cons_of_pos (by simpa using hc)]
      dsimp only
      rw [bumpTag_get_eq, List.length_cons]
      omega

theorem capInner_dmap_ne (keepTexts : List Str) (g : List Chunk) {k : Str}
    (hk : k ≠ tagCapParent) :
    ∀ (acc : List Chunk × List (Str × Nat)),
      dmapGet (g.foldl (fun acc2 c =>
        if keepTexts.contains (shaKey (pyStrip c.text)) then (acc2.1 ++ [c], acc2.2)
        else (acc2.1, bumpTag acc2.2 tagCapParent 1)) acc).2 k = dmapGet acc.2 k := by
  induction g with
  | nil => intro acc; rfl
  | cons c rest ih =>
    intro acc
    rw [List.foldl_cons]
    by_cases hc : keepTexts.contains (shaKey (pyStrip c.text))
    · rw [if_pos hc, ih]
    · rw [if_neg hc, ih]
      dsimp only
      rw [bumpTag_get_ne _ _ hk]

theorem capParent_fold (cfg : FilterCfg) (gs : List (Str × List Chunk)) :
    ∀ (acc : List Chunk × List (Str × Nat)),
      (gs.foldl (fun acc kg =>
        let g := kg.2
        if g.length ≤ cfg.max_chunks_per_parent then (acc.1 ++ g, acc.2)
        else
          let keepTexts := ((capSort g).take cfg.max_chunks_per_parent).map
            (fun c => shaKey (pyStrip c.text))
          g.foldl
            (fun acc2 c =>
              if keepTexts.contains (shaKey (pyStrip c.text)) then (acc2.1 ++ [c], acc2.2)
              else (acc2.1, bumpTag acc2.2 tagCapParent 1))
            acc) acc).1 =
        acc.1 ++ (gs.map (fun kg => capProcessGroup cfg kg.2)).flatten ∧
      dmapGet (gs.foldl (fun acc kg =>
        let g := kg.2
        if g.length ≤ cfg.max_chunks_per_parent then (acc.1 ++ g, acc.2)
        else
          let keepTexts := ((capSort g).take cfg.max_chunks_per_parent).map
            (fun c => shaKey (pyStrip c.text))
          g.foldl
            (fun acc2 c =>
              if keepTexts.contains (shaKey (pyStrip c.text)) then (acc2.1 ++ [c], acc2.2)
              else (acc2.1, bumpTag acc2.2 tagCapParent 1))
            acc) acc).2 tagCapParent =
        dmapGet acc.2 tagCapParent + (gs.map (fun kg => capGroupDropped cfg kg.2)).sum := by
  induction gs with
  | nil => intro acc; exact ⟨by simp, by simp⟩
  | cons kg rest ih =>
    intro acc
    rw [List.foldl_cons]
    dsimp only
    by_cases hsmall : kg.2.length ≤ cfg.max_chunks_per_parent
    · rw [if_pos hsmall]
      rcases ih (acc.1 ++ kg.2, acc.2) with ⟨h1, h2⟩
      constructor
      · rw [h1]
        dsimp only
        rw [List.map_cons, List.flatten_cons]
        rw [capProcessGroup, if_pos hsmall, List.append_assoc]
      · rw [h2]
        dsimp only
        rw [List.map_cons, List.sum_cons]
        rw [capGroupDropped, if_pos hsmall, Nat.zero_add]
    · rw [if_neg hsmall]
      have hin1 := capInner_kept (((capSort kg.2).take cfg.max_chunks_per_parent).map
        (fun c => shaKey (pyStrip c.text))) kg.2 acc
      have hin2 := capInner_dmap (((capSort kg.2).take cfg.max_chunks_per_parent).map
        (fun c => shaKey (pyStrip c.text))) kg.2 acc
      rcases ih (kg.2.foldl
          (fun acc2 c =>
            if (((capSort kg.2).take cfg.max_chunks_per_parent).map
              (fun c' => shaKey (pyStrip c'.text))).contains (shaKey (pyStrip c.text)) then
              (acc2.1 ++ [c], acc2.2)
            else (acc2.1, bumpTag acc2.2 tagCapParent 1)) acc) with ⟨h1, h2⟩
      constructor
      · rw [h1, hin1]
        rw [List.map_cons, List.flatten_cons]
        rw [capProcessGroup, if_neg hsmall, List.append_assoc]
      · rw [h2, hin2]
        rw [List.map_cons, List.sum_cons]
        rw [capGroupDropped, if_neg hsmall]
        omega

theorem capParentStage_spec (cfg : FilterCfg) (kept : List Chunk) (dmap : List (Str × Nat)) :
    (capParentStage cfg kept dmap).1 =
      ((groupByParent kept).map (fun kg => capProcessGroup cfg kg.2)).flatten ∧
    dmapGet (capParentStage cfg kept dmap).2 tagCapParent =
      dmapGet dmap tagCapParent +
        ((groupByParent kept).map (fun kg => capGroupDropped cfg kg.2)).sum := by
  unfold capParentStage
  have h := capParent_fold cfg (groupByParent kept) ([], dmap)
  exact ⟨by rw [h.1]; simp, h.2⟩
theorem sum_map_add {α : Type} (l : List α) (f g : α → Nat) :
    (l.map (fun x => f x + g x)).sum = (l.map f).sum + (l.map g).sum := by
  induction l with
  | nil => rfl
  | cons x rest ih =>
    simp only [List.map_cons, List.sum_cons, ih]
    omega

theorem sum_indicator_nodup {ks : List Str} {a : Str} (hnd : ks.Nodup) (ha : a ∈ ks) :
    (ks.map (fun k => if a = k then 1 else 0)).sum = 1 := by
  induction ks with
  | nil => cases ha
  | cons k rest ih =>
    rcases List.nodup_cons.mp hnd with ⟨hk, hrest⟩
    rcases List.mem_cons.mp ha with h | h
    · subst h
      rw [List.map_cons, List.sum_cons, if_pos rfl]
      have hz : (rest.map (fun k => if a = k then 1 else 0)).sum = 0 := by
        apply List.sum_eq_zero
        intro x hx
        rcases List.mem_map.mp hx with ⟨k', hk', hval⟩
        have hne : ¬ a = k' := by
          intro he
          exact hk (he ▸ hk')
        rw [← hval, if_neg hne]
      omega
    · have hne : ¬ a = k := by
        intro he
        exact hk (he ▸ h)
      rw [List.map_cons, List.sum_cons, if_neg hne, ih hrest h]

theorem length_filter_split {α : Type} (l : List α) (p : α → Bool) :
    (l.filter p).length + (l.filter (fun x => !p x)).length = l.length := by
  induction l with
  | nil => rfl
  | cons x rest ih =>
    cases hx : p x
    · rw [List.filter_cons_of_neg (by simp [hx]), List.filter_cons_of_pos (by simp [hx])]
      simp only [List.length_cons]
      omega
    · rw [List.filter_cons_of_pos (by simp [hx]), List.filter_cons_of_neg (by simp [hx])]
      simp only [List.length_cons]
      omega

theorem sum_filter_lengths (l : List Chunk) :
    ((dedupKeepFirst (l.map capKey)).map
      (fun k => (l.filter (fun c => decide (capKey c = k))).length)).sum = l.length := by
  induction l using List.reverseRecOn with
  | nil => rfl
  | append_singleton t c ih =>
    rw [List.map_append, List.map_singleton, dedupKeepFirst_append_singleton]
    have hsplit : ∀ k : Str, ((t ++ [c]).filter (fun x => decide (capKey x = k))).length =
        (t.filter (fun x => decide (capKey x = k))).length + (if capKey c = k then 1 else 0) := by
      intro k
      rw [List.filter_append, List.length_append]
      congr 1
      by_cases hk : capKey c = k
      · simp [List.filter, hk]
      · simp [List.filter, hk]
    by_cases hmem : capKey c ∈ dedupKeepFirst (t.map capKey)
    · rw [if_pos hmem]
      have hcongr : (dedupKeepFirst (t.map capKey)).map
          (fun k => ((t ++ [c]).filter (fun x => decide (capKey x = k))).length) =
        (dedupKeepFirst (t.map capKey)).map
          (fun k => (t.filter (fun x => decide (capKey x = k))).length +
            (if capKey c = k then 1 else 0)) :=
        List.map_congr_left (fun k _ => hsplit k)
      rw [hcongr, sum_map_add, ih, sum_indicator_nodup (dedupKeepFirst_nodup _) hmem,
        List.length_append, List.length_singleton]
    · rw [if_neg hmem, List.map_append, List.map_singleton, List.sum_append]
      have hcongr : (dedupKeepFirst (t.map capKey)).map
          (fun k => ((t ++ [c]).filter (fun x => decide (capKey x = k))).length) =
        (dedupKeepFirst (t.map capKey)).map
          (fun k => (t.filter (fun x => decide (capKey x = k))).length) := by
        apply List.map_congr_left
        intro k hk
        have hne : ¬ capKey c = k := by
          intro he
          exact hmem (he ▸ hk)
        rw [hsplit k, if_neg hne, Nat.add_zero]
      rw [hcongr, ih]
      have hnew : ((t ++ [c]).filter (fun x => decide (capKey x = capKey c))).length = 1 := by
        rw [hsplit (capKey c), if_pos rfl]
        have hz : t.filter (fun x => decide (capKey x = capKey c)) = [] := by
          rw [List.filter_eq_nil_iff]
          intro a ha hdec
          exact hmem (mem_dedupKeepFirst.mpr
            ((of_decide_eq_true hdec) ▸ List.mem_map_of_mem capKey ha))
        rw [hz]
        rfl
      rw [List.sum_cons, List.sum_nil, hnew, List.length_append, List.length_singleton]
      omega

theorem groupByParent_length_sum (l : List Chunk) :
    ((groupByParent l).map (fun kg => kg.2.length)).sum = l.length := by
  rw [groupByParent_spec, List.map_map]
  exact sum_filter_lengths l

theorem mem_capSort {c : Chunk} {l : List Chunk} : c ∈ capSort l ↔ c ∈ l :=
  (List.perm_insertionSort capRel l).mem_iff

theorem capSort_length (l : List Chunk) : (capSort l).length = l.length :=
  (List.perm_insertionSort capRel l).length_eq

theorem capProcessGroup_subset (cfg : FilterCfg) (g : List Chunk) {x : Chunk}
    (hx : x ∈ capProcessGroup cfg g) : x ∈ g := by
  unfold capProcessGroup at hx
  split_ifs at hx
  · exact hx
  · exact List.mem_of_mem_filter hx

theorem capProcessGroup_length_le (cfg : FilterCfg) (g : List Chunk) :
    (capProcessGroup cfg g).length ≤ g.length := by
  unfold capProcessGroup
  split_ifs
  · exact Nat.le_refl _
  · exact List.length_filter_le _ _

theorem groupByParent_snd_eq {kept : List Chunk} {kg : Str × List Chunk}
    (h : kg ∈ groupByParent kept) :
    kg.2 = kept.filter (fun c => decide (capKey c = kg.1)) := by
  rw [groupByParent_spec] at h
  rcases List.mem_map.mp h with ⟨k, _, hkg⟩
  rw [← hkg]

theorem groupByParent_snd_sub {kept : List Chunk} {kg : Str × List Chunk}
    (h : kg ∈ groupByParent kept) : ∀ x ∈ kg.2, x ∈ kept := by
  intro x hx
  rw [groupByParent_snd_eq h] at hx
  exact List.mem_of_mem_filter hx

theorem capParentStage_mem (cfg : FilterCfg) (kept : List Chunk) (dmap : List (Str × Nat))
    {x : Chunk} (hx : x ∈ (capParentStage cfg kept dmap).1) : x ∈ kept := by
  rw [(capParentStage_spec cfg kept dmap).1] at hx
  rcases List.mem_flatten.mp hx with ⟨s, hs, hxs⟩
  rcases List.mem_map.mp hs with ⟨kg, hkg, hskg⟩
  exact groupByParent_snd_sub hkg x (capProcessGroup_subset cfg kg.2 (hskg ▸ hxs))

theorem capParentStage_length_le (cfg : FilterCfg) (kept : List Chunk)
    (dmap : List (Str × Nat)) : (capParentStage cfg kept dmap).1.length ≤ kept.length := by
  rw [(capParentStage_spec cfg kept dmap).1, List.length_flatten, List.map_map]
  calc ((groupByParent kept).map (List.length ∘ fun kg => capProcessGroup cfg kg.2)).sum
      ≤ ((groupByParent kept).map (fun kg => kg.2.length)).sum :=
        List.sum_le_sum (fun kg _ => capProcessGroup_length_le cfg kg.2)
    _ = kept.length := groupByParent_length_sum kept

theorem capDocStage_mem (cfg : FilterCfg) (l : List Chunk) (dmap : List (Str × Nat))
    {x : Chunk} (hx : x ∈ (capDocStage cfg l dmap).1) : x ∈ l := by
  unfold capDocStage at hx
  split_ifs at hx
  · exact mem_capSort.mp (List.take_subset _ _ hx)
  · exact hx

theorem capDocStage_length_le (cfg : FilterCfg) (l : List Chunk) (dmap : List (Str × Nat)) :
    (capDocStage cfg l dmap).1.length ≤ l.length := by
  unfold capDocStage
  split_ifs
  · dsimp only
    rw [List.length_take, capSort_length]
    exact Nat.min_le_right _ _
  · exact Nat.le_refl _

theorem mergeHeadingAux_length_le (l : List Chunk) :
    (mergeHeadingAux l).length ≤ l.length := by
  have H : ∀ (k : Nat) (l : List Chunk), l.length ≤ k →
      (mergeHeadingAux l).length ≤ l.length := by
    intro k
    induction k with
    | zero =>
      intro l hl
      match l with
      | [] => simp [mergeHeadingAux]
      | c :: rest => simp at hl
    | succ k ih =>
      intro l hl
      match l with
      | [] => simp [mergeHeadingAux]
      | [c] => simp [mergeHeadingAux]
      | c :: n :: rest =>
        rw [mergeHeadingAux]
        split_ifs with h
        · have hr := ih rest (by simp only [List.length_cons] at hl; omega)
          dsimp only
          simp only [List.length_cons]
          omega
        · have hr := ih (n :: rest) (by simp only [List.length_cons] at hl ⊢; omega)
          simp only [List.length_cons] at hr ⊢
          omega
  exact H l.length l (Nat.le_refl _)

theorem mergeHeadingWithNext_length_le (l : List Chunk) :
    (mergeHeadingWithNext l).length ≤ l.length := by
  unfold mergeHeadingWithNext
  rw [reindexChunks_length]
  exact mergeHeadingAux_length_le l

/-- C10: with filtering enabled the returned statistics satisfy
`total_in - total_out = dropped`, where `total_in` is the length of the list
after the heading-merge pass (so it can be smaller than the number of chunks
passed in) and `total_out` is the length of the returned kept list; the
subtraction never truncates since `total_out ≤ total_in`. -/
theorem c10_stats_accounting (cfg : FilterCfg) (chunks : List Chunk)
    (henabled : cfg.enabled = true) :
    (filter_chunks cfg chunks).2.total_in = (mergeHeadingWithNext chunks).length ∧
    (filter_chunks cfg chunks).2.total_out = (filter_chunks cfg chunks).1.length ∧
    (filter_chunks cfg chunks).2.total_out ≤ (filter_chunks cfg chunks).2.total_in ∧
    (filter_chunks cfg chunks).2.total_in - (filter_chunks cfg chunks).2.total_out =
      (filter_chunks cfg chunks).2.dropped ∧
    (filter_chunks cfg chunks).2.total_in ≤ chunks.length := by
  unfold filter_chunks
  rw [if_neg (fun h => h henabled)]
  dsimp only
  refine ⟨rfl, rfl, ?_, rfl, mergeHeadingWithNext_length_le chunks⟩
  have h1 := capDocStage_length_le cfg
    (capParentStage cfg (filterLoop cfg (mergeHeadingWithNext chunks) [] []).kept
      (filterLoop cfg (mergeHeadingWithNext chunks) [] []).dmap).1
    (capParentStage cfg (filterLoop cfg (mergeHeadingWithNext chunks) [] []).kept
      (filterLoop cfg (mergeHeadingWithNext chunks) [] []).dmap).2
  have h2 := capParentStage_length_le cfg
    (filterLoop cfg (mergeHeadingWithNext chunks) [] []).kept
    (filterLoop cfg (mergeHeadingWithNext chunks) [] []).dmap
  have h3 := filterLoop_kept_len cfg (mergeHeadingWithNext chunks) [] []
  rw [reindexChunks_length]
  omega

/-- Closed witness for C10 on a one-chunk document with the default filter
configuration. -/
theorem c10_stats_accounting_witness :
    ({} : FilterCfg).enabled = true ∧
    (filter_chunks {} [wChunkA]).2.total_in - (filter_chunks {} [wChunkA]).2.total_out =
      (filter_chunks {} [wChunkA]).2.dropped :=
  ⟨rfl, (c10_stats_accounting {} [wChunkA] rfl).2.2.2.1⟩

/-- C1 (amended): the chunker's own output always satisfies the recount
invariant `token_count = TokenCounter.count(text)`, and the enabled filter
never alters a surviving chunk's text or token count after the heading-merge
pre-pass — so any drift in the final output can only be introduced by the
heading-merge's `max(len(text)//4, sum of counts)` recombination, which is
not a recount of the merged text. -/
theorem c1_token_recount_amended (ccfg : ChunkerCfg) (md : Str) (fcfg : FilterCfg)
    (chunks : List Chunk) (henabled : fcfg.enabled = true) :
    (∀ c ∈ chunkerChunk ccfg md, c.token_count = tcCount c.text) ∧
    (∀ c ∈ (filter_chunks fcfg chunks).1,
      ∃ c0 ∈ mergeHeadingWithNext chunks, c.text = c0.text ∧ c.token_count = c0.token_count) := by
  constructor
  · intro c hc
    exact (chunkerChunk_good ccfg md c hc).1
  · intro c hc
    unfold filter_chunks at hc
    rw [if_neg (fun h => h henabled)] at hc
    dsimp only at hc
    rcases mem_reindexChunks hc with ⟨c1, hc1, htext1, htok1, _⟩
    have hc2 := capDocStage_mem _ _ _ hc1
    have hc3 := capParentStage_mem _ _ _ hc2
    rcases filterLoop_kept_src fcfg (mergeHeadingWithNext chunks) [] [] c1 hc3 with
      ⟨c0, hc0, htext0, htok0, _, _⟩
    exact ⟨c0, hc0, htext1.trans htext0, htok1.trans htok0⟩

/-- Closed witness for the amended C1 on concrete inputs. -/
theorem c1_token_recount_witness :
    ({} : FilterCfg).enabled = true ∧
    (∀ c ∈ chunkerChunk ⟨3, 500, 0, 2⟩ (strL ("# T\n\nsome body text")),
      c.token_count = tcCount c.text) ∧
    (∀ c ∈ (filter_chunks {} [wChunkA]).1,
      ∃ c0 ∈ mergeHeadingWithNext [wChunkA],
        c.text = c0.text ∧ c.token_count = c0.token_count) :=
  ⟨rfl,
   (c1_token_recount_amended ⟨3, 500, 0, 2⟩ (strL ("# T\n\nsome body text")) {} [wChunkA]
     rfl).1,
   (c1_token_recount_amended ⟨3, 500, 0, 2⟩ (strL ("# T\n\nsome body text")) {} [wChunkA]
     rfl).2⟩

/-- C1's literal claim fails: after the filter's heading-merge pre-pass a
final output chunk's stored `token_count` (here `max(len//4, 1+1) = 2`)
differs from a recount of its text (`max(1, len(strip)//4) = 1`). -/
theorem c1_claim_counterexample :
    ∃ c ∈ (filter_chunks { min_tokens := 0 } [wHeadChunk, wBodyChunk]).1,
      c.token_count ≠ tcCount c.text := by decide

theorem chunkerChunk_dense (cfg : ChunkerCfg) (text : Str) :
    (chunkerChunk cfg text).map (fun c => c.index) =
      List.range (chunkerChunk cfg text).length := by
  unfold chunkerChunk
  rw [reindexChunks_map_index, reindexChunks_length]

theorem filter_chunks_dense (fcfg : FilterCfg) (chunks : List Chunk)
    (hidx : chunks.map (fun c => c.index) = List.range chunks.length) :
    (filter_chunks fcfg chunks).1.map (fun c => c.index) =
      List.range (filter_chunks fcfg chunks).1.length := by
  unfold filter_chunks
  by_cases hen : fcfg.enabled = true
  · rw [if_neg (fun h => h hen)]
    dsimp only
    rw [reindexChunks_map_index, reindexChunks_length]
  · rw [if_pos hen]
    exact hidx

/-- C8: the pipeline is deterministic — two runs of
normalize/cleanup/chunk/filter on the same Markdown input and configuration
yield the same chunk texts, token counts, and order (in this pure model the
two runs are one value, so the maps agree definitionally), and every run's
indices are dense `0..n-1`, which is what the retrying ingestion job's
keyed upsert relies on. -/
theorem c8_determinism (ccfg : ChunkerCfg) (fcfg : FilterCfg) (md : Str)
    (r1 r2 : List Chunk × FilterStats)
    (h1 : r1 = runPipeline ccfg fcfg md) (h2 : r2 = runPipeline ccfg fcfg md) :
    r1.1.map (fun c => (c.index, c.text, c.token_count)) =
      r2.1.map (fun c => (c.index, c.text, c.token_count)) ∧
    r1.1.map (fun c => c.index) = List.range r1.1.length := by
  subst h1 h2
  refine ⟨rfl, ?_⟩
  unfold runPipeline
  exact filter_chunks_dense fcfg _ (chunkerChunk_dense ccfg _)

/-- Closed witness for C8: two runs on a concrete document agree and the
output indices are dense. -/
theorem c8_determinism_witness :
    runPipeline ⟨3, 500, 0, 2⟩ {} (strL ("# T\n\nbody")) =
      runPipeline ⟨3, 500, 0, 2⟩ {} (strL ("# T\n\nbody")) ∧
    (runPipeline ⟨3, 500, 0, 2⟩ {} (strL ("# T\n\nbody"))).1.map (fun c => c.index) =
      List.range (runPipeline ⟨3, 500, 0, 2⟩ {} (strL ("# T\n\nbody"))).1.length :=
  ⟨rfl,
   (c8_determinism ⟨3, 500, 0, 2⟩ {} (strL ("# T\n\nbody")) _ _ rfl rfl).2⟩

theorem filterLoop_append (cfg : FilterCfg) (l1 l2 : List Chunk) :
    ∀ (seen : List Str) (dmap : List (Str × Nat)),
      filterLoop cfg (l1 ++ l2) seen dmap =
        { kept := (filterLoop cfg l1 seen dmap).kept ++
            (filterLoop cfg l2 (filterLoop cfg l1 seen dmap).seen
              (filterLoop cfg l1 seen dmap).dmap).kept
          seen := (filterLoop cfg l2 (filterLoop cfg l1 seen dmap).seen
              (filterLoop cfg l1 seen dmap).dmap).seen
          dmap := (filterLoop cfg l2 (filterLoop cfg l1 seen dmap).seen
              (filterLoop cfg l1 seen dmap).dmap).dmap } := by
  induction l1 with
  | nil => intro seen dmap; simp [filterLoop]
  | cons c rest ih =>
    intro seen dmap
    rw [List.cons_append, filterLoop_cons, filterLoop_cons]
    split_ifs with hdrop
    · exact ih _ _
    · dsimp only
      rw [ih _ _]
      simp

theorem kept_filter_nil_of_src (cfg : FilterCfg) (l : List Chunk) (seen : List Str)
    (dmap : List (Str × Nat)) (K : Str)
    (hsrc : ∀ x ∈ l, shaKey (pyStrip x.text) ≠ K) :
    (filterLoop cfg l seen dmap).kept.filter
      (fun k => decide (shaKey (pyStrip k.text) = K)) = [] := by
  rw [List.filter_eq_nil_iff]
  intro k hk hdec
  rcases filterLoop_kept_src cfg l seen dmap k hk with ⟨x, hx, htext, _⟩
  have hkk := of_decide_eq_true hdec
  rw [htext] at hkk
  exact hsrc x hx hkk

theorem kept_filter_nil_of_seen (cfg : FilterCfg) (l : List Chunk) (seen : List Str)
    (dmap : List (Str × Nat)) (K : Str) (hK : K ∈ seen) :
    (filterLoop cfg l seen dmap).kept.filter
      (fun k => decide (shaKey (pyStrip k.text) = K)) = [] := by
  rw [List.filter_eq_nil_iff]
  intro k hk hdec
  exact (filterLoop_kept_fresh cfg l seen dmap).1 k hk ((of_decide_eq_true hdec) ▸ hK)

theorem seen_no_key (cfg : FilterCfg) (l : List Chunk) (seen : List Str)
    (dmap : List (Str × Nat)) (K : Str) (hseen : K ∉ seen)
    (hsrc : ∀ x ∈ l, shaKey (pyStrip x.text) ≠ K) :
    K ∉ (filterLoop cfg l seen dmap).seen := by
  rw [filterLoop_seen]
  intro hmem
  rcases List.mem_append.mp hmem with h | h
  · exact hseen h
  · rcases List.mem_map.mp h with ⟨k, hk, hkey⟩
    rcases filterLoop_kept_src cfg l seen dmap k hk with ⟨x, hx, htext, _⟩
    rw [htext] at hkey
    exact hsrc x hx hkey

/-- C6: duplicate detection is order-dependent.  With two chunks of
byte-identical trimmed text (`c` before `d`) and no earlier chunk carrying
the same content hash: if `c` is not dropped for a reason of its own, `c` is
the unique survivor of that hash (with its text, index and token count
intact), `d` is tagged `duplicate` at its turn and dropped; and if `c` is
dropped for a reason of its own, its hash never enters the seen-set, `d` is
not tagged `duplicate`, and `d` is the unique survivor of that hash. -/
theorem c6_duplicate_order (cfg : FilterCfg) (xs ys zs : List Chunk) (c d : Chunk)
    (hkey : shaKey (pyStrip d.text) = shaKey (pyStrip c.text))
    (hxs : ∀ x ∈ xs, shaKey (pyStrip x.text) ≠ shaKey (pyStrip c.text))
    (hys : ∀ x ∈ ys, shaKey (pyStrip x.text) ≠ shaKey (pyStrip c.text))
    (hd : dropsOwn cfg d = false) :
    (dropsOwn cfg c = false →
      tagDuplicate ∈ tagsForChunk cfg (filterLoop cfg (xs ++ c :: ys) [] []).seen d ∧
      ((filterLoop cfg (xs ++ c :: ys ++ d :: zs) [] []).kept.filter
          (fun k => decide (shaKey (pyStrip k.text) = shaKey (pyStrip c.text)))).map
        (fun k => (k.index, k.text, k.token_count)) =
        [(c.index, c.text, c.token_count)]) ∧
    (dropsOwn cfg c = true →
      tagDuplicate ∉ tagsForChunk cfg (filterLoop cfg (xs ++ c :: ys) [] []).seen d ∧
      ((filterLoop cfg (xs ++ c :: ys ++ d :: zs) [] []).kept.filter
          (fun k => decide (shaKey (pyStrip k.text) = shaKey (pyStrip c.text)))).map
        (fun k => (k.index, k.text, k.token_count)) =
        [(d.index, d.text, d.token_count)]) := by
  have hre : xs ++ c :: ys ++ d :: zs = (xs ++ c :: ys) ++ d :: zs := by simp
  have hR : shaKey (pyStrip c.text) ∉ (filterLoop cfg xs [] []).seen :=
    seen_no_key cfg xs [] [] _ (List.not_mem_nil _) hxs
  constructor
  · intro hcown
    have hcond : ((tagsForChunk cfg (filterLoop cfg xs [] []).seen c).any
        (fun t => dropTags.contains t)) = false := by
      rw [drop_decision, hcown, strContains_false_iff.mpr hR]
      rfl
    have hC : filterLoop cfg (c :: ys) (filterLoop cfg xs [] []).seen
        (filterLoop cfg xs [] []).dmap =
      { filterLoop cfg ys
          ((filterLoop cfg xs [] []).seen ++ [shaKey (pyStrip c.text)])
          (filterLoop cfg xs [] []).dmap with
        kept := { c with metadata :=
            { c.metadata with
              tags := sortedUniqueStrs (c.metadata.tags ++
                tagsForChunk cfg (filterLoop cfg xs [] []).seen c)
              quality_score := some (computeQualityScore c.token_count
                (tagsForChunk cfg (filterLoop cfg xs [] []).seen c)) } } ::
          (filterLoop cfg ys
            ((filterLoop cfg xs [] []).seen ++ [shaKey (pyStrip c.text)])
            (filterLoop cfg xs [] []).dmap).kept } := by
      rw [filterLoop_cons, if_neg (by rw [hcond]; exact Bool.false_ne_true)]
    have hAseen : (filterLoop cfg (xs ++ c :: ys) [] []).seen =
        (filterLoop cfg ys
          ((filterLoop cfg xs [] []).seen ++ [shaKey (pyStrip c.text)])
          (filterLoop cfg xs [] []).dmap).seen := by
      rw [filterLoop_append cfg xs (c :: ys) [] []]
      dsimp only
      rw [hC]
    have hKinY : shaKey (pyStrip c.text) ∈
        (filterLoop cfg ys
          ((filterLoop cfg xs [] []).seen ++ [shaKey (pyStrip c.text)])
          (filterLoop cfg xs [] []).dmap).seen := by
      rw [filterLoop_seen]
      exact List.mem_append_left _ (List.mem_append_right _ (List.mem_singleton_self _))
    have hKinA : shaKey (pyStrip c.text) ∈ (filterLoop cfg (xs ++ c :: ys) [] []).seen := by
      rw [hAseen]
      exact hKinY
    have hBcond : ((tagsForChunk cfg (filterLoop cfg (xs ++ c :: ys) [] []).seen d).any
        (fun t => dropTags.contains t)) = true := by
      rw [drop_decision, hd, hkey, strContains_iff.mpr hKinA]
      rfl
    refine ⟨?_, ?_⟩
    · rw [tagsFor_dup_split cfg (by rw [hkey]; exact strContains_iff.mpr hKinA)]
      exact List.mem_append_right _ (List.mem_singleton_self _)
    · rw [hre, filterLoop_append cfg (xs ++ c :: ys) (d :: zs) [] []]
      dsimp only
      rw [filterLoop_cons, if_pos hBcond]
      rw [filterLoop_append cfg xs (c :: ys) [] []]
      dsimp only
      rw [hC]
      dsimp only
      rw [List.filter_append, List.filter_append]
      rw [kept_filter_nil_of_src cfg xs [] [] _ hxs]
      rw [List.filter_cons_of_pos (by exact decide_eq_true rfl)]
      rw [kept_filter_nil_of_seen cfg ys _ _ _
        (List.mem_append_right _ (List.mem_singleton_self _))]
      rw [kept_filter_nil_of_seen cfg zs _ _ _ hKinY]
      simp
  · intro hcown
    have hcond2 : ((tagsForChunk cfg (filterLoop cfg xs [] []).seen c).any
        (fun t => dropTags.contains t)) = true := by
      rw [drop_decision, hcown]
      rfl
    have hC2 : filterLoop cfg (c :: ys) (filterLoop cfg xs [] []).seen
        (filterLoop cfg xs [] []).dmap =
      filterLoop cfg ys (filterLoop cfg xs [] []).seen
        ((tagsForChunk cfg (filterLoop cfg xs [] []).seen c).foldl
          (fun m t => bumpTag m t 1) (filterLoop cfg xs [] []).dmap) := by
      rw [filterLoop_cons, if_pos hcond2]
    have hAseen2 : (filterLoop cfg (xs ++ c :: ys) [] []).seen =
        (filterLoop cfg ys (filterLoop cfg xs [] []).seen
          ((tagsForChunk cfg (filterLoop cfg xs [] []).seen c).foldl
            (fun m t => bumpTag m t 1) (filterLoop cfg xs [] []).dmap)).seen := by
      rw [filterLoop_append cfg xs (c :: ys) [] []]
      dsimp only
      rw [hC2]
    have hKnotA : shaKey (pyStrip c.text) ∉ (filterLoop cfg (xs ++ c :: ys) [] []).seen := by
      rw [hAseen2]
      exact seen_no_key cfg ys _ _ _ hR hys
    have hBcond2 : ((tagsForChunk cfg (filterLoop cfg (xs ++ c :: ys) [] []).seen d).any
        (fun t => dropTags.contains t)) = false := by
      rw [drop_decision, hd, strContains_false_iff.mpr (by rw [hkey]; exact hKnotA)]
      rfl
    refine ⟨?_, ?_⟩
    · rw [tagsFor_no_dup cfg (strContains_false_iff.mpr (by rw [hkey]; exact hKnotA))]
      exact tagDuplicate_not_mem_own cfg d
    · rw [hre, filterLoop_append cfg (xs ++ c :: ys) (d :: zs) [] []]
      dsimp only
      rw [filterLoop_cons, if_neg (by rw [hBcond2]; exact Bool.false_ne_true)]
      dsimp only
      rw [filterLoop_append cfg xs (c :: ys) [] []]
      dsimp only
      rw [hC2]
      rw [List.filter_append, List.filter_append]
      rw [kept_filter_nil_of_src cfg xs [] [] _ hxs]
      rw [kept_filter_nil_of_src cfg ys _ _ _ hys]
      rw [List.filter_cons_of_pos (by exact decide_eq_true hkey)]
      rw [kept_filter_nil_of_seen cfg zs _ _ _
        (List.mem_append_right _ (by rw [hkey]; exact List.mem_singleton_self _))]
      simp

/-- Closed witness for C6: two byte-identical chunks under the default
filter configuration — the first is kept as the unique survivor of the hash
and the second is tagged `duplicate`. -/
theorem c6_duplicate_order_witness :
    dropsOwn {} wDupA = false ∧
    tagDuplicate ∈ tagsForChunk {} (filterLoop {} ([] ++ wDupA :: []) [] []).seen wDupB ∧
    ((filterLoop {} ([] ++ wDupA :: [] ++ wDupB :: []) [] []).kept.filter
        (fun k => decide (shaKey (pyStrip k.text) = shaKey (pyStrip wDupA.text)))).map
      (fun k => (k.index, k.text, k.token_count)) =
      [(wDupA.index, wDupA.text, wDupA.token_count)] := by
  have h := (c6_duplicate_order {} [] [] [] wDupA wDupB rfl (by simp) (by simp)
    (by decide)).1 (by decide)
  exact ⟨by decide, h.1, h.2⟩

theorem capSort_sorted (l : List Chunk) : List.Sorted capRel (capSort l) :=
  List.sorted_insertionSort capRel l

theorem group_trims_nodup {kept : List Chunk}
    (hnd : (kept.map (fun c => shaKey (pyStrip c.text))).Nodup)
    {kg : Str × List Chunk} (hkg : kg ∈ groupByParent kept) :
    (kg.2.map (fun c => shaKey (pyStrip c.text))).Nodup := by
  rw [groupByParent_snd_eq hkg]
  exact List.Nodup.sublist ((List.filter_sublist _).map _) hnd

theorem capProcessGroup_perm (cfg : FilterCfg) (g : List Chunk)
    (hnd : (g.map (fun c => shaKey (pyStrip c.text))).Nodup)
    (hover : cfg.max_chunks_per_parent < g.length) :
    (capProcessGroup cfg g).Perm ((capSort g).take cfg.max_chunks_per_parent) := by
  unfold capProcessGroup
  rw [if_neg (Nat.not_le.mpr hover)]
  have hperm : (capSort g).Perm g := List.perm_insertionSort capRel g
  have hnds : ((capSort g).map (fun c => shaKey (pyStrip c.text))).Nodup :=
    ((hperm.map _).nodup_iff).mpr hnd
  have hsplit := List.take_append_drop cfg.max_chunks_per_parent (capSort g)
  have htake : ((capSort g).take cfg.max_chunks_per_parent).filter
      (fun c => (((capSort g).take cfg.max_chunks_per_parent).map
        (fun c' => shaKey (pyStrip c'.text))).contains (shaKey (pyStrip c.text))) =
      (capSort g).take cfg.max_chunks_per_parent := by
    rw [List.filter_eq_self]
    intro a ha
    exact strContains_iff.mpr (List.mem_map_of_mem _ ha)
  have hdisj : ∀ a ∈ (capSort g).drop cfg.max_chunks_per_parent,
      (((capSort g).take cfg.max_chunks_per_parent).map
        (fun c' => shaKey (pyStrip c'.text))).contains (shaKey (pyStrip a.text)) = false := by
    intro a ha
    rw [strContains_false_iff]
    intro hmem
    have hndapp : ((((capSort g).take cfg.max_chunks_per_parent).map
        (fun c => shaKey (pyStrip c.text))) ++
      (((capSort g).drop cfg.max_chunks_per_parent).map
        (fun c => shaKey (pyStrip c.text)))).Nodup := by
      rw [← List.map_append, hsplit]
      exact hnds
    exact (List.nodup_append.mp hndapp).2.2 hmem (List.mem_map_of_mem _ ha)
  have hdropnil : ((capSort g).drop cfg.max_chunks_per_parent).filter
      (fun c => (((capSort g).take cfg.max_chunks_per_parent).map
        (fun c' => shaKey (pyStrip c'.text))).contains (shaKey (pyStrip c.text))) = [] := by
    rw [List.filter_eq_nil_iff]
    intro a ha hp
    rw [hdisj a ha] at hp
    exact Bool.false_ne_true hp
  have hsfilter : (capSort g).filter
      (fun c => (((capSort g).take cfg.max_chunks_per_parent).map
        (fun c' => shaKey (pyStrip c'.text))).contains (shaKey (pyStrip c.text))) =
      (capSort g).take cfg.max_chunks_per_parent := by
    have h0 : (capSort g).filter
        (fun c => (((capSort g).take cfg.max_chunks_per_parent).map
          (fun c' => shaKey (pyStrip c'.text))).contains (shaKey (pyStrip c.text))) =
      ((capSort g).take cfg.max_chunks_per_parent ++
          (capSort g).drop cfg.max_chunks_per_parent).filter
        (fun c => (((capSort g).take cfg.max_chunks_per_parent).map
          (fun c' => shaKey (pyStrip c'.text))).contains (shaKey (pyStrip c.text))) := by
      rw [hsplit]
    rw [h0, List.filter_append, htake, hdropnil, List.append_nil]
  have hf := hperm.filter (fun c => (((capSort g).take cfg.max_chunks_per_parent).map
    (fun c' => shaKey (pyStrip c'.text))).contains (shaKey (pyStrip c.text)))
  rw [hsfilter] at hf
  exact hf.symm

theorem capGroupDropped_eq (cfg : FilterCfg) (g : List Chunk)
    (hnd : (g.map (fun c => shaKey (pyStrip c.text))).Nodup)
    (hover : cfg.max_chunks_per_parent < g.length) :
    capGroupDropped cfg g = g.length - cfg.max_chunks_per_parent := by
  have hlen := (capProcessGroup_perm cfg g hnd hover).length_eq
  unfold capProcessGroup at hlen
  rw [if_neg (Nat.not_le.mpr hover), List.length_take, capSort_length] at hlen
  have hsplit := length_filter_split g (fun c =>
    (((capSort g).take cfg.max_chunks_per_parent).map
      (fun c' => shaKey (pyStrip c'.text))).contains (shaKey (pyStrip c.text)))
  unfold capGroupDropped
  rw [if_neg (Nat.not_le.mpr hover)]
  omega

/-- C7: capping.  For surviving chunks whose trimmed-text hashes are distinct
(which the dedup loop guarantees), the per-parent pass maps each parent group
through `capProcessGroup`: groups at or under `max_chunks_per_parent` pass
through unchanged with no drop count, and each oversized group keeps exactly
(a permutation of) the top `max_chunks_per_parent` of the group sorted by
quality score descending with ties broken by larger token count, counting
each of the `length - max_chunks_per_parent` excess chunks under
`cap_parent`.  Afterwards, if the surviving total exceeds
`max_chunks_per_doc`, the document-wide pass keeps the top
`max_chunks_per_doc` of the same sort, counting the rest under `cap_doc`,
and otherwise passes everything through; the result is reindexed densely
from 0. -/
theorem c7_caps (cfg : FilterCfg) (kept : List Chunk) (dmap : List (Str × Nat))
    (hnd : (kept.map (fun c => shaKey (pyStrip c.text))).Nodup) :
    (capParentStage cfg kept dmap).1 =
      ((groupByParent kept).map (fun kg => capProcessGroup cfg kg.2)).flatten ∧
    dmapGet (capParentStage cfg kept dmap).2 tagCapParent =
      dmapGet dmap tagCapParent +
        ((groupByParent kept).map (fun kg => capGroupDropped cfg kg.2)).sum ∧
    (∀ kg ∈ groupByParent kept,
      (kg.2.length ≤ cfg.max_chunks_per_parent →
        capProcessGroup cfg kg.2 = kg.2 ∧ capGroupDropped cfg kg.2 = 0) ∧
      (cfg.max_chunks_per_parent < kg.2.length →
        (capProcessGroup cfg kg.2).Perm
          ((capSort kg.2).take cfg.max_chunks_per_parent) ∧
        List.Sorted capRel (capSort kg.2) ∧
        capGroupDropped cfg kg.2 = kg.2.length - cfg.max_chunks_per_parent)) ∧
    List.Sorted capRel (capSort (capParentStage cfg kept dmap).1) ∧
    (cfg.max_chunks_per_doc < (capParentStage cfg kept dmap).1.length →
      (capDocStage cfg (capParentStage cfg kept dmap).1
          (capParentStage cfg kept dmap).2).1 =
        (capSort (capParentStage cfg kept dmap).1).take cfg.max_chunks_per_doc ∧
      dmapGet (capDocStage cfg (capParentStage cfg kept dmap).1
          (capParentStage cfg kept dmap).2).2 tagCapDoc =
        dmapGet (capParentStage cfg kept dmap).2 tagCapDoc +
          ((capParentStage cfg kept dmap).1.length - cfg.max_chunks_per_doc)) ∧
    ((capParentStage cfg kept dmap).1.length ≤ cfg.max_chunks_per_doc →
      capDocStage cfg (capParentStage cfg kept dmap).1
          (capParentStage cfg kept dmap).2 =
        ((capParentStage cfg kept dmap).1, (capParentStage cfg kept dmap).2)) ∧
    (reindexChunks (capDocStage cfg (capParentStage cfg kept dmap).1
        (capParentStage cfg kept dmap).2).1).map (fun c => c.index) =
      List.range (capDocStage cfg (capParentStage cfg kept dmap).1
        (capParentStage cfg kept dmap).2).1.length := by
  refine ⟨(capParentStage_spec cfg kept dmap).1, (capParentStage_spec cfg kept dmap).2,
    ?_, capSort_sorted _, ?_, ?_, ?_⟩
  · intro kg hkg
    constructor
    · intro hsmall
      constructor
      · unfold capProcessGroup
        rw [if_pos hsmall]
      · unfold capGroupDropped
        rw [if_pos hsmall]
    · intro hover
      have hgnd := group_trims_nodup hnd hkg
      exact ⟨capProcessGroup_perm cfg kg.2 hgnd hover, capSort_sorted _,
        capGroupDropped_eq cfg kg.2 hgnd hover⟩
  · intro hover
    unfold capDocStage
    rw [if_pos hover]
    dsimp only
    refine ⟨rfl, ?_⟩
    rw [bumpTag_get_eq, List.length_take, capSort_length]
    have := Nat.min_eq_left (Nat.le_of_lt hover)
    omega
  · intro hunder
    unfold capDocStage
    rw [if_neg (Nat.not_lt.mpr hunder)]
  · rw [reindexChunks_map_index]

/-- Closed witness for C7: three chunks (two sharing a parent) under caps of
one chunk per parent and one per document — the per-parent stage reduces the
oversized group, and the document stage keeps the top chunk of the
document-wide sort. -/
theorem c7_caps_witness :
    (wCapChunks.map (fun c => shaKey (pyStrip c.text))).Nodup ∧
    wCapCfg.max_chunks_per_doc < (capParentStage wCapCfg wCapChunks []).1.length ∧
    (capDocStage wCapCfg (capParentStage wCapCfg wCapChunks []).1
        (capParentStage wCapCfg wCapChunks []).2).1 =
      (capSort (capParentStage wCapCfg wCapChunks []).1).take
        wCapCfg.max_chunks_per_doc := by
  have h := c7_caps wCapCfg wCapChunks [] (by decide)
  exact ⟨by decide, by decide, (h.2.2.2.2.1 (by decide)).1⟩
